import Mathlib

/-!
Shallow embedding of the `configuration` package, centred on
`configuration/advanced_configuration.py` (class `AdvancedConfiguration`) and the
parts of `configuration/simple_configuration.py` (class `Configuration`) that it
inherits.  Python dictionaries are modelled as insertion-ordered association
lists with unique keys, Python `None` as the `Value.vnone` leaf, and exceptions
as explicit error results that also carry the partially mutated state (Python
exceptions leave the object mutated in place).  All claims use the default
separator `'.'`, the default action/modifier registries and the default
ordering `'=+-!?'`, so those are embedded as fixed constants, exactly as the
class attributes define them.  Recursion in `_merge` is fuelled: the fuel is
decremented once per nested `_merge` call, and exhaustion yields the
distinguished error `Err.fuelOut`, which no Python execution exhibits; all
general theorems quantify over the fuel.
-/

set_option linter.unusedVariables false

namespace Cfg

/-- A JSON-like Python value: `None`, ints, bools, strings, lists and dicts.
Dicts (`vdict`) keep insertion order, as Python dicts do. -/
inductive Value : Type where
  | vnone : Value
  | vint  : Int → Value
  | vbool : Bool → Value
  | vstr  : String → Value
  | vlist : List Value → Value
  | vdict : List (String × Value) → Value

/-- The type of the `_data` payload of a configuration: a Python dict. -/
abbrev Dict := List (String × Value)

mutual
/-- Structural equality on values, modelling Python `==` on the embedded
fragment (note: Python additionally identifies `1 == True`; no code path of the
claims compares a bool with an int). -/
def Value.beq : Value → Value → Bool
  | .vnone, .vnone => true
  | .vint a, .vint b => a == b
  | .vbool a, .vbool b => a == b
  | .vstr a, .vstr b => a == b
  | .vlist xs, .vlist ys => beqVL xs ys
  | .vdict xs, .vdict ys => beqVD xs ys
  | _, _ => false
/-- `Value.beq` on Python lists. -/
def beqVL : List Value → List Value → Bool
  | [], [] => true
  | x :: xs, y :: ys => Value.beq x y && beqVL xs ys
  | _, _ => false
/-- `Value.beq` on Python dicts (Python dict equality is order-insensitive;
the embedded code only ever compares non-dict leaves, where this agrees). -/
def beqVD : List (String × Value) → List (String × Value) → Bool
  | [], [] => true
  | (k, x) :: xs, (k', y) :: ys => k == k' && Value.beq x y && beqVD xs ys
  | _, _ => false
end

/-- `.vdict` test, i.e. Python `isinstance(x, dict)`. -/
def Value.isDict : Value → Bool
  | .vdict _ => true
  | _ => false

/-- Python `x is None`. -/
def Value.isNone : Value → Bool
  | .vnone => true
  | _ => false

/-- Source identifiers: either a caller-supplied string name or the integer
merge ordinal used when no name is given. -/
inductive SrcId where
  | istr : String → SrcId
  | inum : Nat → SrcId
deriving Repr, DecidableEq

/-- Python truthiness of a source identifier (`name or len(self._merge_order)`
falls back to the count exactly when `name` is falsy). -/
def SrcId.falsy : SrcId → Bool
  | .istr s => s = ""
  | .inum n => n = 0

/-- The exceptions the embedded code can raise.  `malformedKey` is
`ConfigurationError('Unknown key: ...')`, `lockedKey` is `LockError`,
`typeError` / `valueError` / `attrError` / `keyError` are the native Python
`TypeError` / `ValueError` / `AttributeError` / `KeyError`, and `fuelOut` is
the artefact of fuelling the recursion (never raised by the Python code). -/
inductive Err where
  | malformedKey : String → Err
  | lockedKey : String → Err
  | typeError : Err
  | valueError : Err
  | attrError : Err
  | keyError : Err
  | fuelOut : Err
deriving Repr, DecidableEq

/-- Result of a mutating operation: Python exceptions propagate but leave the
object partially mutated, so the error case also carries the state. -/
inductive MRes (α : Type) where
  | ok : α → MRes α
  | err : Err → α → MRes α

/-- Whether a result is a successful one. -/
def MRes.isOk : MRes α → Bool
  | .ok _ => true
  | .err _ _ => false

/-- The state carried by a result, successful or not. -/
def MRes.state : MRes α → α
  | .ok a => a
  | .err _ a => a

/-- Association-list lookup: Python `d[k]` / `d.get(k)` presence. -/
def lookupA {β : Type} {κ : Type} [DecidableEq κ] :
    List (κ × β) → κ → Option β
  | [], _ => none
  | (k', v) :: t, k => if k' = k then some v else lookupA t k

/-- Association-list store: Python `d[k] = v`.  An existing key keeps its
position (as in Python dicts); a new key is appended. -/
def insertA {β : Type} {κ : Type} [DecidableEq κ] :
    List (κ × β) → κ → β → List (κ × β)
  | [], k, v => [(k, v)]
  | (k', v') :: t, k, v => if k' = k then (k, v) :: t else (k', v') :: insertA t k v

/-- `lookupA` without the unused `DecidableEq β` burden, for `Value` payloads. -/
def lookupV : List (String × Value) → String → Option Value
  | [], _ => none
  | (k', v) :: t, k => if k' = k then some v else lookupV t k

-- ======================================================================== --
--  Actions (advanced_configuration.py, `_add`, `_subtract`, `_copy`)       --
-- ======================================================================== --

/-- Python ints (with bools counting as ints, `isinstance(True, int)`). -/
def toIntQ : Value → Option Int
  | .vint n => some n
  | .vbool b => some (if b then 1 else 0)
  | _ => none

/-- `_add(orig, new) = orig + new`: numbers add, strings and lists
concatenate, anything else raises `TypeError`. -/
def pyAdd (orig new : Value) : Except Err Value :=
  match toIntQ orig, toIntQ new with
  | some a, some b => .ok (.vint (a + b))
  | _, _ =>
    match orig, new with
    | .vstr a, .vstr b => .ok (.vstr (a ++ b))
    | .vlist a, .vlist b => .ok (.vlist (a ++ b))
    | _, _ => .error .typeError

/-- Python `list.remove(x)`: drop the first element equal to `x`, raising
`ValueError` when there is none. -/
def removeFirst : List Value → Value → Except Err (List Value)
  | [], _ => .error .valueError
  | x :: t, y => if x.beq y then .ok t else (removeFirst t y).map (x :: ·)

/-- `for x in new: orig.remove(x)`, in order. -/
def removeAll (xs : List Value) : List Value → Except Err (List Value)
  | [] => .ok xs
  | y :: ys =>
    match removeFirst xs y with
    | .ok xs' => removeAll xs' ys
    | .error e => .error e

/-- `_subtract(orig, new)`: element removal from lists, numeric subtraction,
substring removal from strings; any other `orig` (including `None` and dicts)
falls through every `isinstance` branch and is returned unchanged. -/
def pySub (orig new : Value) : Except Err Value :=
  match orig with
  | .vlist xs =>
    match new with
    | .vlist ys => (removeAll xs ys).map .vlist
    | y => (removeFirst xs y).map .vlist
  | .vint a =>
    match toIntQ new with
    | some b => .ok (.vint (a - b))
    | none => .error .typeError
  | .vbool b0 =>
    match toIntQ new with
    | some b => .ok (.vint ((if b0 then (1 : Int) else 0) - b))
    | none => .error .typeError
  | .vstr s =>
    match new with
    | .vstr t => .ok (.vstr (s.replace t ""))
    | _ => .error .typeError
  | v => .ok v

/-- Dispatch on `AdvancedConfiguration._actions` (`'+'`, `'-'`, `'='`).  The
parser only produces registered action symbols, so the final case is
unreachable (Python would raise `KeyError` on a missing registry entry). -/
def applyAction (a : Char) (orig new : Value) : Except Err Value :=
  if a = '+' then pyAdd orig new
  else if a = '-' then pySub orig new
  else if a = '=' then .ok orig
  else .error .keyError

-- ======================================================================== --
--  Modifiers (`_exists`, `_not_exists`, `_apply_modifiers`)                --
-- ======================================================================== --

/-- One modifier gate: `'?'` is `_exists` (`orig is not None`), `'!'` is
`_not_exists` (`orig is None`).  The parser only produces registered modifier
symbols, so the final case is unreachable. -/
def applyMod (m : Char) (orig new : Value) : Bool :=
  if m = '?' then !orig.isNone
  else if m = '!' then orig.isNone
  else true

/-- `_apply_modifiers`: every modifier must accept, in order (short-circuit,
but the gates are pure so `List.all` coincides). -/
def applyMods (mods : List Char) (orig new : Value) : Bool :=
  mods.all (fun m => applyMod m orig new)

-- ======================================================================== --
--  Key grammar (`recompile` + `_separate`)                                 --
-- ======================================================================== --

/-- `\w` of the compiled pattern, on the ASCII fragment. -/
def isWordChar (c : Char) : Bool := c.isAlphanum || c = '_'

/-- The result of `_separate`: the `SeparatedKey` namedtuple.  `modifiers`
models the first regex group (`None` and the impossible empty match both as
`[]`, which is how the code consumes it: only via truthiness and iteration),
`lock` the presence of the `'#'` group. -/
structure SepKey where
  key : String
  modifiers : List Char
  action : Option Char
  lock : Bool
  trueKey : String
deriving Repr, DecidableEq

/-- The default modifier symbols (`_modifiers` keys). -/
def modChars : List Char := ['!', '?']

/-- The default action symbols (`_actions` keys). -/
def actionChars : List Char := ['=', '+', '-']

/-- `_separate` against the default compiled pattern
`^([\!\?]+)?([\+\-\=])?(#)?(\w+)$`.  The three symbol classes and `\w` are
pairwise disjoint, so the greedy regex match is equivalent to this
deterministic scan; `none` models the `ConfigurationError` raised on a
non-matching key. -/
def separate (k : String) : Option SepKey :=
  let cs := k.toList
  let mods := cs.takeWhile (fun c => c ∈ modChars)
  let rest := cs.dropWhile (fun c => c ∈ modChars)
  let ap : Option Char × List Char :=
    match rest with
    | c :: t => if c ∈ actionChars then (some c, t) else (none, rest)
    | [] => (none, [])
  let lp : Bool × List Char :=
    match ap.2 with
    | c :: t => if c = '#' then (true, t) else (false, ap.2)
    | [] => (false, [])
  if lp.2 ≠ [] ∧ lp.2.all isWordChar then
    some ⟨k, mods, ap.1, lp.1, String.mk lp.2⟩
  else none

-- ======================================================================== --
--  Ordering (`_ordering`, `_sort_order`)                                   --
-- ======================================================================== --

/-- The default `_ordering` class attribute, `list('=+-!?')`. -/
def ordering : List Char := ['=', '+', '-', '!', '?']

/-- `self._ordering.index(symbol)`; every registered default symbol occurs. -/
def orderIdx (c : Char) : Nat := ordering.indexOf c

/-- `_sort_order`'s tuple `(true_key, lock, action_index, mod_indexes)`,
flattened into one lexicographically compared list: the true key's code
points shifted by one, then a `0` terminator (so a true key that is a
proper prefix of another sorts strictly first, exactly as Python's
component-wise tuple comparison orders the underlying strings), then the
lock rank, the action index, and the modifier indexes.
Python compares `None` and `'#'` lock fields by raising `TypeError` when the
true keys tie; the embedding totalises that one case as `None < '#'` (no
claim exercises it). -/
def skeyL (sk : SepKey) : List Nat :=
  sk.trueKey.toList.map (fun c => c.toNat + 1) ++
    0 :: (if sk.lock then 1 else 0) ::
    (match sk.action with | some a => orderIdx a | none => 0) ::
    sk.modifiers.map orderIdx

/-- Lexicographic comparison of flattened sort keys. -/
def lexLeB : List Nat → List Nat → Bool
  | [], _ => true
  | _ :: _, [] => false
  | a :: as, b :: bs => if a < b then true else if b < a then false else lexLeB as bs

/-- The `sorted(..., key=self._sort_order)` order on (separated key, value)
pairs. -/
def itemLe (x y : SepKey × Value) : Prop := lexLeB (skeyL x.1) (skeyL y.1) = true

instance : DecidableRel itemLe := fun x y => instDecidableEqBool _ _

/-- `sorted(split, key=self._sort_order)`.  `List.insertionSort` with a
non-strict total relation is stable, as Python's sort is. -/
def sortItems (l : List (SepKey × Value)) : List (SepKey × Value) :=
  List.insertionSort itemLe l

/-- The strict part of the sort order: used to show the sorted order is
unique when no two keys share a sort key. -/
def itemKeyLt (x y : SepKey × Value) : Prop :=
  itemLe x y ∧ skeyL x.1 ≠ skeyL y.1

/-- `split = [self._separate(key) for key in source]`, paired with the raw
values (`source[sep_key.key]`): the whole level is parsed, in insertion
order, before any key is applied, and the first malformed key aborts. -/
def parseAll : Dict → Except String (List (SepKey × Value))
  | [] => .ok []
  | (k, v) :: t =>
    match separate k with
    | none => .error k
    | some sk => (parseAll t).map ((sk, v) :: ·)

-- ======================================================================== --
--  The merge recursion (`AdvancedConfiguration._merge`)                    --
-- ======================================================================== --

/-- The `_sources` / `__pending_lock` state threaded through `_merge`
(`_locked` is only read there, never written, so it is passed separately as a
plain argument). -/
structure SubSt where
  sources : List (String × List SrcId)
  pending : List String
deriving Repr, DecidableEq

/-- `path + self._separator + key if path else key`. -/
def joinPath (path k : String) : String :=
  if path = "" then k else path ++ "." ++ k

/-- Set insertion (Python `set.add`), keeping a duplicate-free list. -/
def insertSet (l : List String) (k : String) : List String :=
  if k ∈ l then l else l ++ [k]

/-- Python `set.update`. -/
def unionSet (l m : List String) : List String := m.foldl insertSet l

/-- Python `str.startswith`. -/
def startsWithS (s p : String) : Bool := p.toList.isPrefixOf s.toList

/-- `sources = self._sources.setdefault(key_path, []); if name not in sources:
sources.append(name)`. -/
def appendSource (ss : List (String × List SrcId)) (k : String) (n : SrcId) :
    List (String × List SrcId) :=
  match lookupA ss k with
  | some l => if n ∈ l then ss else insertA ss k (l ++ [n])
  | none => ss ++ [(k, [n])]

/-- `removed = {key for key in self._sources if key.startswith(key_path)};
for key in removed: self._sources.pop(key, None)`. -/
def purge (ss : List (String × List SrcId)) (kp : String) :
    List (String × List SrcId) :=
  ss.filter (fun e => !startsWithS e.1 kp)

/-- The `for sep_key in ordered:` loop of `AdvancedConfiguration._merge`,
applying the already separated and sorted keys of one level; the recursive
`self._merge(new_value, node, name, key_path)` call on nested dict values is
inlined (separate every key of that sub-level, sort, loop).  Structurally
fuelled: one unit of fuel is consumed per processed key and per nested level,
so any fuel at least the total size of the merged data is enough; exhaustion
yields `Err.fuelOut`, which no Python execution exhibits. -/
def mergeItems (fuel : Nat) (items : List (SepKey × Value)) (dest : Value)
    (name : SrcId) (path : String) (locked : List String) (st : SubSt) :
    MRes (Value × SubSt) :=
  match fuel with
  | 0 => .err .fuelOut (dest, st)
  | fuel' + 1 =>
    match items with
    | [] => .ok (dest, st)
    | (sk, v) :: rest =>
      let keyPath := joinPath path sk.trueKey
      if keyPath ∈ locked then .err (.lockedKey keyPath) (dest, st)
      else
        match dest with
        | .vdict d =>
          let existing := (lookupV d sk.trueKey).getD .vnone
          if sk.modifiers ≠ [] ∧ applyMods sk.modifiers existing v = false then
            mergeItems fuel' rest dest name path locked st
          else
            let acted : Except Err (Value × Bool) :=
              match sk.action with
              | some a => (applyAction a existing v).map (fun w => (w, true))
              | none => .ok (v, false)
            match acted with
            | .error e => .err e (dest, st)
            | .ok (newV, km) =>
              match newV with
              | .vdict nd =>
                let pr : Value × Dict :=
                  match lookupV d sk.trueKey with
                  | some ex => (ex, d)
                  | none => (.vdict [], insertA d sk.trueKey (.vdict []))
                let sub : MRes (Value × SubSt) :=
                  match parseAll nd with
                  | .error k => .err (.malformedKey k) (pr.1, st)
                  | .ok subItems =>
                    mergeItems fuel' (sortItems subItems) pr.1 name keyPath locked st
                match sub with
                | .err e (node', st') =>
                  .err e (.vdict (insertA pr.2 sk.trueKey node'), st')
                | .ok (node', st') =>
                  let dest' := Value.vdict (insertA pr.2 sk.trueKey node')
                  let st2 :=
                    if sk.lock then
                      { st' with pending := insertSet st'.pending keyPath }
                    else st'
                  let st3 :=
                    if km || sk.lock then
                      { st2 with sources := appendSource st2.sources keyPath name }
                    else st2
                  mergeItems fuel' rest dest' name path locked st3
              | _ =>
                let d2 := insertA d sk.trueKey newV
                let st1 :=
                  if existing.isDict then
                    { st with sources := purge st.sources keyPath }
                  else st
                let st2 :=
                  if sk.action.isNone then
                    { st1 with sources := insertA st1.sources keyPath [] }
                  else st1
                let st3 :=
                  if sk.lock then
                    { st2 with pending := insertSet st2.pending keyPath }
                  else st2
                let st4 :=
                  { st3 with sources := appendSource st3.sources keyPath name }
                mergeItems fuel' rest (.vdict d2) name path locked st4
        | _ => .err .attrError (dest, st)

/-- One call of `AdvancedConfiguration._merge(source, dest, name, path)`:
separate every key of the level (before applying anything), sort, then run
the loop.  `dest` is a tree node (Python passes sub-dicts by reference;
applying a key against a non-dict node raises `AttributeError`, modelled in
`mergeItems`). -/
def mergeLevel (fuel : Nat) (src : Dict) (dest : Value) (name : SrcId)
    (path : String) (locked : List String) (st : SubSt) : MRes (Value × SubSt) :=
  match parseAll src with
  | .error k => .err (.malformedKey k) (dest, st)
  | .ok items => mergeItems fuel (sortItems items) dest name path locked st

-- ======================================================================== --
--  The configuration object and its public operations                      --
-- ======================================================================== --

/-- The mutable state of an `AdvancedConfiguration` (default separator):
`_data`, `_sources`, `_merge_order`, `_locked`, `__pending_lock`. -/
structure Config where
  data : Value
  sources : List (String × List SrcId)
  mergeOrder : List SrcId
  locked : List String
  pending : List String

/-- A freshly constructed `AdvancedConfiguration()` (no seed data). -/
def emptyConfig : Config := ⟨.vdict [], [], [], [], []⟩

/-- `identifier = name or len(self._merge_order)`. -/
def resolveId (name : Option SrcId) (σ : Config) : SrcId :=
  match name with
  | some s => if s.falsy then .inum σ.mergeOrder.length else s
  | none => .inum σ.mergeOrder.length

/-- `AdvancedConfiguration.merge(data, name)`: run `_merge` on the root; on
success append to `_merge_order`, commit `__pending_lock` into `_locked` and
clear it.  On an exception nothing after the `_merge` call runs: the partial
tree/provenance mutations stay, the pending set stays as grown, the active
locks and the merge order are untouched. -/
def doMerge (fuel : Nat) (data : Dict) (name : Option SrcId) (σ : Config) :
    MRes Config :=
  let idf := resolveId name σ
  match mergeLevel fuel data σ.data idf "" σ.locked ⟨σ.sources, σ.pending⟩ with
  | .err e (data', st) =>
    .err e { σ with data := data', sources := st.sources, pending := st.pending }
  | .ok (data', st) =>
    .ok { data := data', sources := st.sources,
          mergeOrder := σ.mergeOrder ++ [idf],
          locked := unionSet σ.locked st.pending, pending := [] }

/-- `key.split(self._separator)` (separator `'.'`). -/
def splitDotGo : List Char → List Char → List String
  | [], cur => [String.mk cur.reverse]
  | c :: t, cur =>
    if c = '.' then String.mk cur.reverse :: splitDotGo t []
    else splitDotGo t (c :: cur)

/-- Python `str.split('.')`. -/
def splitDot (s : String) : List String := splitDotGo s.toList []

/-- `_get_locked_key`'s loop: try the join of all parts, then repeatedly drop
the last part. -/
def lockedKeyGo (locked : List String) (parts : List String) : Nat → Option String
  | 0 => none
  | i + 1 =>
    let cand := String.intercalate "." (parts.take (i + 1))
    if cand ∈ locked then some cand
    else lockedKeyGo locked parts i

/-- `AdvancedConfiguration._get_locked_key(key)`: the first (longest) locked
segment-wise prefix of `key`, if any. -/
def getLockedKey (locked : List String) (key : String) : Option String :=
  lockedKeyGo locked (splitDot key) (splitDot key).length

/-- `Configuration._walk` + `data[key]` for `get`: walk every part but the
last through dict nodes (`KeyError` when absent, `TypeError` when indexing a
non-dict), then read the final key. -/
def getPath : Value → List String → Except Err Value
  | .vdict d, [k] =>
    match lookupV d k with
    | some v => .ok v
    | none => .error .keyError
  | .vdict d, k :: rest =>
    match lookupV d k with
    | some child => getPath child rest
    | none => .error .keyError
  | .vdict _, [] => .error .keyError
  | _, _ => .error .typeError

/-- `Configuration._walk` + `data[key] = value` for `set`. -/
def setPath : Value → List String → Value → Except Err Value
  | .vdict d, [k], v => .ok (.vdict (insertA d k v))
  | .vdict d, k :: rest, v =>
    match lookupV d k with
    | some child => (setPath child rest v).map (fun c => Value.vdict (insertA d k c))
    | none => .error .keyError
  | .vdict _, [], _ => .error .keyError
  | _, _, _ => .error .typeError

/-- The read-only walk of `Configuration._walk` over `parts[:-1]`: returns
the parent dict that the final segment will be written into, or `none`
exactly when `set`/`get` would raise (`KeyError`/`TypeError`) while
resolving an ancestor. -/
def walkParents : Value → List String → Option Dict
  | .vdict d, [_] => some d
  | .vdict d, k :: rest =>
    (match lookupV d k with
      | some child => walkParents child rest
      | none => none)
  | _, _ => none

/-- `Configuration.get(key)` (raises on unresolvable paths). -/
def getF (σ : Config) (key : String) : Except Err Value :=
  getPath σ.data (splitDot key)

/-- `AdvancedConfiguration.set(key, value)`: `LockError` when `_get_locked_key`
finds a locked prefix, before any mutation; otherwise the single write of
`Configuration.set`. -/
def setF (σ : Config) (key : String) (v : Value) : MRes Config :=
  match getLockedKey σ.locked key with
  | some k => .err (.lockedKey k) σ
  | none =>
    match setPath σ.data (splitDot key) v with
    | .ok data' => .ok { σ with data := data' }
    | .error e => .err e σ

/-- `AdvancedConfiguration.lock_key(key)`. -/
def lockKeyF (σ : Config) (key : String) : Config :=
  { σ with locked := insertSet σ.locked key }

/-- `AdvancedConfiguration.is_locked(key)`. -/
def isLockedF (σ : Config) (key : String) : Bool :=
  (getLockedKey σ.locked key).isSome

-- ======================================================================== --
--  Provenance queries (`source`, `sources`)                                --
-- ======================================================================== --

/-- `Configuration.source`'s two return shapes on an `AdvancedConfiguration`
(whose `_sources` values are lists): the stored list for a key present in
`_sources`, else the collected per-entry lists. -/
inductive SourceRes where
  | direct : List SrcId → SourceRes
  | collected : List (List SrcId) → SourceRes
deriving Repr, DecidableEq

/-- The `except KeyError` loop of `Configuration.source`: append
`source_name` for every `source_key` that starts with `key`, in `_sources`
iteration order. -/
def collectLoop (key : String) : List (String × List SrcId) → List (List SrcId)
  | [] => []
  | (k', l) :: t =>
    if startsWithS k' key then l :: collectLoop key t else collectLoop key t

/-- `Configuration.source(key)` as inherited by `AdvancedConfiguration`. -/
def sourceF (σ : Config) (key : String) : SourceRes :=
  match lookupA σ.sources key with
  | some l => .direct l
  | none => .collected (collectLoop key σ.sources)

/-- Keep-first deduplication, as a Python dict comprehension over a list with
duplicates performs. -/
def dedupGo (seen : List SrcId) : List SrcId → List SrcId
  | [] => []
  | s :: t => if s ∈ seen then dedupGo seen t else s :: dedupGo (seen ++ [s]) t

/-- Keep-first deduplication of the merge order, as the dict comprehension
`{key: [] for key in self._merge_order}` performs. -/
def dedupIds (l : List SrcId) : List SrcId := dedupGo [] l

/-- The inner `for source in source_list: sources[source].append(nested_key)`
of `AdvancedConfiguration.sources` (`KeyError` when a recorded source is
missing from `_merge_order`). -/
def addPaths (acc : List (SrcId × List String)) (path : String) :
    List SrcId → Except Err (List (SrcId × List String))
  | [] => .ok acc
  | s :: rest =>
    match lookupA acc s with
    | none => .error .keyError
    | some ps => addPaths (insertA acc s (ps ++ [path])) path rest

/-- The outer `for nested_key, source_list in self._sources.items()` loop. -/
def srcFold (acc : List (SrcId × List String)) :
    List (String × List SrcId) → Except Err (List (SrcId × List String))
  | [] => .ok acc
  | (p, srcs) :: t =>
    match addPaths acc p srcs with
    | .ok acc' => srcFold acc' t
    | .error e => .error e

/-- `AdvancedConfiguration.sources()`: invert `_sources` over the identifiers
of `_merge_order`. -/
def sourcesOf (σ : Config) : Except Err (List (SrcId × List String)) :=
  srcFold ((dedupIds σ.mergeOrder).map (fun s => (s, []))) σ.sources

-- ======================================================================== --
--  Plain (operator-free) layers, for the idempotence claim                 --
-- ======================================================================== --

/-- A key with no modifier/action/lock symbols: a nonempty `\\w+` token. -/
def plainKey (k : String) : Bool :=
  !k.toList.isEmpty && k.toList.all isWordChar

mutual
/-- Every key of the (nested) value is a plain key. -/
def plainVal : Value → Bool
  | .vdict d => plainDict d
  | _ => true
/-- Every key of the (nested) dict is a plain key. -/
def plainDict : Dict → Bool
  | [] => true
  | (k, v) :: t => plainKey k && plainVal v && plainDict t
end

mutual
/-- The value is a well-formed Python object: nested dict keys are unique. -/
def wfVal : Value → Bool
  | .vdict d => wfDict d
  | _ => true
/-- The dict has unique keys at every level, as any real Python dict does. -/
def wfDict : Dict → Bool
  | [] => true
  | (k, v) :: t => !(t.map Prod.fst).contains k && wfVal v && wfDict t
end

/-- Lookup inside a tree node (`none` on non-dict nodes). -/
def dLook : Value → String → Option Value
  | .vdict d, k => lookupV d k
  | _, _ => none

mutual
/-- The full paths of the leaves of a tree node rooted at `path` (a dict
node contributes the leaves of its subtree, any other node its own path). -/
def leafPathsV (path : String) : Value → List String
  | .vdict nd => leafPathsD path nd
  | _ => [path]
/-- The full paths of the leaves of a dict, each joined below `path`. -/
def leafPathsD (path : String) : Dict → List String
  | [] => []
  | (k, v) :: t => leafPathsV (joinPath path k) v ++ leafPathsD path t
end

/-- The leaf paths a single separated item contributes below `path`. -/
def pathsOfItem (path : String) (it : SepKey × Value) : List String :=
  leafPathsV (joinPath path it.1.trueKey) it.2

/-- The separated key a plain raw key parses to. -/
def plainSep (k : String) : SepKey := ⟨k, [], none, false, k⟩

/-- The shape of the items of a parsed plain, well-formed level: no
modifiers, no action, no lock, a nonempty all-word-character true key, and
plain well-formed values. -/
def PlainPack (items : List (SepKey × Value)) : Prop :=
  ∀ it ∈ items, it.1.modifiers = [] ∧ it.1.action = none ∧ it.1.lock = false ∧
    it.1.trueKey.toList ≠ [] ∧ it.1.trueKey.toList.all isWordChar = true ∧
    plainVal it.2 = true ∧ wfVal it.2 = true

/-- What one successful loop run over a plain, duplicate-free, sorted item
list guarantees: pending locks unchanged, provenance only touched at or
below the items' paths, untouched keys framed, dict-ness of the node kept,
the run replayable on the result without changing it (for any name and
source state), and every leaf path of every item attributed to exactly the
current name. -/
def PlainConcl (fuel : Nat) (items : List (SepKey × Value)) (dest : Value)
    (name : SrcId) (path : String) (locked : List String) (st : SubSt)
    (dest' : Value) (st' : SubSt) : Prop :=
  st'.pending = st.pending ∧
  (∀ q, lookupA st'.sources q ≠ lookupA st.sources q →
    ∃ it ∈ items, startsWithS q (joinPath path it.1.trueKey) = true) ∧
  (∀ k2, (∀ it ∈ items, it.1.trueKey ≠ k2) → dLook dest' k2 = dLook dest k2) ∧
  (∀ d0, dest = .vdict d0 → ∃ d1, dest' = .vdict d1) ∧
  (∀ name₂ st₂, ∃ st₂', mergeItems fuel items dest' name₂ path locked st₂ =
    .ok (dest', st₂')) ∧
  (∀ it ∈ items, ∀ p ∈ pathsOfItem path it, lookupA st'.sources p = some [name])

/-- The induction hypothesis shape for `PlainConcl` at a given fuel. -/
def PlainIH (fuel : Nat) : Prop :=
  ∀ (items : List (SepKey × Value)) (dest : Value) (name : SrcId)
    (path : String) (locked : List String) (st : SubSt)
    (dest' : Value) (st' : SubSt),
  PlainPack items → (items.map (fun it => it.1.trueKey)).Nodup →
  List.Pairwise itemLe items →
  mergeItems fuel items dest name path locked st = .ok (dest', st') →
  PlainConcl fuel items dest name path locked st dest' st'

-- ======================================================================== --
--  Concrete instances used by individual claims                            --
-- ======================================================================== --

/-- C1: a configuration with `z` explicitly locked. -/
def c1s0 : Config := lockKeyF emptyConfig "z"

/-- C1: a merge that stages a lock on `a` and then aborts with `LockError`
on the locked key `z`. -/
def c1r1 : MRes Config :=
  doMerge 50 [("#a", .vint 1), ("z", .vint 2)] (some (.istr "m1")) c1s0

/-- C1: the state left behind by the aborted merge. -/
def c1s1 : Config := c1r1.state

/-- C1: a later, unrelated, successful merge. -/
def c1r2 : MRes Config := doMerge 50 [("c", .vint 3)] (some (.istr "m2")) c1s1

/-- C2: a layer with a `'='`-action key and a plain key of the same true key,
whose parsed sort keys tie. -/
def c2l1 : Dict := [("=K", .vint 7), ("K", .vdict [("a", .vint 1)])]

/-- C2: the same key/value pairs in the other insertion order. -/
def c2l2 : Dict := [("K", .vdict [("a", .vint 1)]), ("=K", .vint 7)]

/-- C2: merging `c2l1` into a fresh configuration. -/
def c2r1 : MRes Config := doMerge 50 c2l1 (some (.istr "n")) emptyConfig

/-- C2: merging the permuted `c2l2` into a fresh configuration. -/
def c2r2 : MRes Config := doMerge 50 c2l2 (some (.istr "n")) emptyConfig

/-- C3: a lock-flagged key whose value is a dict. -/
def c3res : MRes Config :=
  doMerge 50 [("#grp", .vdict [("a", .vint 1)])] (some (.istr "n")) emptyConfig

/-- C4: a branch `list` next to the sibling leaf `listing` whose name it
prefixes. -/
def c4r1 : MRes Config :=
  doMerge 50 [("list", .vdict [("a", .vint 1)]), ("listing", .vint 2)]
    (some (.istr "one")) emptyConfig

/-- C4: a leaf merged over the branch `list`. -/
def c4res : MRes Config :=
  doMerge 50 [("list", .vint 5)] (some (.istr "two")) c4r1.state

/-- C5: two leaves under the branch `g` plus the sibling leaf `g2` whose name
`g` prefixes, all contributed by one source. -/
def c5res : MRes Config :=
  doMerge 50 [("g", .vdict [("a", .vint 1), ("b", .vint 2)]), ("g2", .vint 7)]
    (some (.istr "n")) emptyConfig

/-- C6: the base `{'exists': 1}`. -/
def c6base : MRes Config :=
  doMerge 50 [("exists", .vint 1)] (some (.istr "one")) emptyConfig

/-- C6: `{'?exists': 2, '?missing': 3}` merged over `{'exists': 1}`. -/
def c6q : MRes Config :=
  doMerge 50 [("?exists", .vint 2), ("?missing", .vint 3)] (some (.istr "two"))
    c6base.state

/-- C6: `{'!exists': 2, '!missing': 3}` merged over `{'exists': 1}`. -/
def c6b : MRes Config :=
  doMerge 50 [("!exists", .vint 2), ("!missing", .vint 3)] (some (.istr "two"))
    c6base.state

/-- C6: the base `{'null': None}` holding a stored `None`. -/
def c6null : MRes Config :=
  doMerge 50 [("null", .vnone)] (some (.istr "one")) emptyConfig

/-- C6: `{'?null': 9}` merged over a stored `None`. -/
def c6qn : MRes Config :=
  doMerge 50 [("?null", .vint 9)] (some (.istr "two")) c6null.state

/-- C6: `{'!null': 9}` merged over a stored `None`. -/
def c6bn : MRes Config :=
  doMerge 50 [("!null", .vint 9)] (some (.istr "two")) c6null.state

/-- C6: the base `{'non_truth': False}` holding a falsy non-`None` value. -/
def c6f : MRes Config :=
  doMerge 50 [("non_truth", .vbool false)] (some (.istr "one")) emptyConfig

/-- C6: `{'?non_truth': True}` merged over the falsy `False`. -/
def c6qf : MRes Config :=
  doMerge 50 [("?non_truth", .vbool true)] (some (.istr "two")) c6f.state

/-- C6: a gated-out lock-flagged key `{'?#missing': 5}`. -/
def c6gl : MRes Config :=
  doMerge 50 [("?#missing", .vint 5)] (some (.istr "two")) c6base.state

/-- C9: `set` on a nested path none of whose ancestors exist. -/
def c9res : MRes Config := setF emptyConfig "a.b" (.vint 5)

/-- C7: a configuration with a single provenance entry. -/
def c7cfg : Config :=
  { emptyConfig with sources := [("x", [.istr "s"])], mergeOrder := [.istr "s"] }

/-- C2 (amended), witness data: a layer with two distinct plain true keys. -/
def c2w1 : Dict := [("bb", .vint 1), ("aa", .vdict [("x", .vint 2)])]

/-- C2 (amended), witness data: the same pairs in the other order. -/
def c2w2 : Dict := [("aa", .vdict [("x", .vint 2)]), ("bb", .vint 1)]

/-- C2 (amended), witness data: the parse of `c2w1`. -/
def c2wItems : List (SepKey × Value) :=
  [(⟨"bb", [], none, false, "bb"⟩, .vint 1),
   (⟨"aa", [], none, false, "aa"⟩, .vdict [("x", .vint 2)])]

/-- C8: a configuration with `z` locked, to make a later merge abort. -/
def c8s0 : Config := lockKeyF emptyConfig "z"

/-- C8: an aborted merge that leaves the lock on `b` pending. -/
def c8r1 : MRes Config :=
  doMerge 50 [("#b", .vint 1), ("z", .vint 0)] (some (.istr "stage")) c8s0

/-- C8: a plain mapping (no operator-prefixed keys). -/
def c8m : Dict := [("a", .vint 5), ("b", .vint 6)]

/-- C8: the first merge of the plain mapping, which commits the stale
pending lock on `b`. -/
def c8r2 : MRes Config := doMerge 50 c8m (some (.istr "n1")) c8r1.state

/-- C8: the second merge of the same plain mapping, which aborts on the
now-active lock. -/
def c8r3 : MRes Config := doMerge 50 c8m (some (.istr "n2")) c8r2.state

/-- C10: a level whose second key (in insertion order) is malformed. -/
def c10src : Dict := [("zz", .vint 1), ("no key", .vint 2)]

-- ======================================================================== --
--  Helper lemmas                                                           --
-- ======================================================================== --

/-- A key whose modifiers all gate to `false` is skipped: no tree,
provenance, or pending-lock change from that key (provided the lock check on
it passes, which Python evaluates first). -/
theorem mergeItems_skips_gated (fuel : Nat) (sk : SepKey) (v : Value)
    (rest : List (SepKey × Value)) (d : Dict) (name : SrcId) (path : String)
    (locked : List String) (st : SubSt)
    (hm : sk.modifiers ≠ [])
    (hg : applyMods sk.modifiers ((lookupV d sk.trueKey).getD .vnone) v = false)
    (hl : joinPath path sk.trueKey ∉ locked) :
    mergeItems (fuel + 1) ((sk, v) :: rest) (.vdict d) name path locked st =
      mergeItems fuel rest (.vdict d) name path locked st := by
  rw [mergeItems]
  simp only [hg, hm, hl]
  simp
  exact fun h => absurd h hm


theorem mem_insertSet_self (l : List String) (k : String) : k ∈ insertSet l k := by
  unfold insertSet; split
  · assumption
  · simp

theorem mem_insertSet_of_mem {l : List String} {a : String} (k : String)
    (h : a ∈ l) : a ∈ insertSet l k := by
  unfold insertSet; split
  · exact h
  · simp [h]

theorem subset_insertSet (l : List String) (k : String) : l ⊆ insertSet l k :=
  fun _ h => mem_insertSet_of_mem k h

theorem mem_unionSet_of_left {l : List String} {a : String} (m : List String)
    (h : a ∈ l) : a ∈ unionSet l m := by
  induction m generalizing l with
  | nil => exact h
  | cons x xs ih => exact ih (mem_insertSet_of_mem x h)

theorem mem_unionSet_of_right {m : List String} {a : String} (l : List String)
    (h : a ∈ m) : a ∈ unionSet l m := by
  induction m generalizing l with
  | nil => cases h
  | cons x xs ih =>
    rcases List.mem_cons.mp h with h' | h'
    · subst h'; exact mem_unionSet_of_left xs (mem_insertSet_self l a)
    · exact ih (insertSet l x) h'

theorem mergeItems_pending_mono :
    ∀ (fuel : Nat) (items : List (SepKey × Value)) (dest : Value) (name : SrcId)
      (path : String) (locked : List String) (st : SubSt),
    st.pending ⊆ ((mergeItems fuel items dest name path locked st).state).2.pending := by
  intro fuel
  induction fuel with
  | zero =>
    intro items dest name path locked st
    simp [mergeItems, MRes.state]
  | succ fuel' IH =>
    intro items dest name path locked st
    match items with
    | [] => simp [mergeItems, MRes.state]
    | (sk, v) :: rest =>
      simp only [mergeItems]
      by_cases hl : joinPath path sk.trueKey ∈ locked
      · simp [hl, MRes.state]
      · rw [if_neg hl]
        cases dest with
        | vdict d =>
          dsimp only
          by_cases hg : sk.modifiers ≠ [] ∧
              applyMods sk.modifiers ((lookupV d sk.trueKey).getD .vnone) v = false
          · rw [if_pos hg]; exact IH rest _ name path locked st
          · rw [if_neg hg]
            cases hact : (match sk.action with
              | some a => Except.map (fun w => (w, true))
                  (applyAction a ((lookupV d sk.trueKey).getD Value.vnone) v)
              | none => Except.ok (v, false)) with
            | error e => simp [MRes.state]
            | ok p =>
              obtain ⟨newV, km⟩ := p
              dsimp only
              cases newV with
              | vdict nd =>
                cases hpa : parseAll nd with
                | error k => simp [hpa, MRes.state]
                | ok subItems =>
                  try simp only [hpa]
                  try dsimp only
                  cases hsub : mergeItems fuel' (sortItems subItems)
                      (match lookupV d sk.trueKey with
                        | some ex => (ex, d)
                        | none => (.vdict [], insertA d sk.trueKey (.vdict []))).1
                      name (joinPath path sk.trueKey) locked st with
                  | err e pr' =>
                    obtain ⟨node', st'⟩ := pr'
                    have h1 : st.pending ⊆ st'.pending := by
                      have h2 := IH (sortItems subItems)
                          ((match lookupV d sk.trueKey with
                            | some ex => (ex, d)
                            | none => (Value.vdict [], insertA d sk.trueKey (Value.vdict []))).1)
                          name (joinPath path sk.trueKey) locked st
                      rw [hsub] at h2; exact h2
                    simp only [hsub, MRes.state]
                    exact h1
                  | ok pr' =>
                    obtain ⟨node', st'⟩ := pr'
                    have h1 : st.pending ⊆ st'.pending := by
                      have h2 := IH (sortItems subItems)
                          ((match lookupV d sk.trueKey with
                            | some ex => (ex, d)
                            | none => (Value.vdict [], insertA d sk.trueKey (Value.vdict []))).1)
                          name (joinPath path sk.trueKey) locked st
                      rw [hsub] at h2; exact h2
                    simp only [hsub]
                    try dsimp only
                    refine List.Subset.trans (List.Subset.trans h1 ?_)
                      (IH rest _ name path locked _)
                    by_cases hlk : sk.lock <;>
                      by_cases hkm : km = true <;>
                      simp [hlk, hkm, subset_insertSet, List.Subset.refl]
              | vnone =>
                refine List.Subset.trans ?_ (IH rest _ name path locked _)
                by_cases hlk : sk.lock <;>
                  by_cases hed : ((lookupV d sk.trueKey).getD Value.vnone).isDict <;>
                  by_cases hac : sk.action.isNone <;>
                  simp [hlk, hed, hac, subset_insertSet, List.Subset.refl]
              | vint a0 =>
                refine List.Subset.trans ?_ (IH rest _ name path locked _)
                by_cases hlk : sk.lock <;>
                  by_cases hed : ((lookupV d sk.trueKey).getD Value.vnone).isDict <;>
                  by_cases hac : sk.action.isNone <;>
                  simp [hlk, hed, hac, subset_insertSet, List.Subset.refl]
              | vbool b0 =>
                refine List.Subset.trans ?_ (IH rest _ name path locked _)
                by_cases hlk : sk.lock <;>
                  by_cases hed : ((lookupV d sk.trueKey).getD Value.vnone).isDict <;>
                  by_cases hac : sk.action.isNone <;>
                  simp [hlk, hed, hac, subset_insertSet, List.Subset.refl]
              | vstr s0 =>
                refine List.Subset.trans ?_ (IH rest _ name path locked _)
                by_cases hlk : sk.lock <;>
                  by_cases hed : ((lookupV d sk.trueKey).getD Value.vnone).isDict <;>
                  by_cases hac : sk.action.isNone <;>
                  simp [hlk, hed, hac, subset_insertSet, List.Subset.refl]
              | vlist l0 =>
                refine List.Subset.trans ?_ (IH rest _ name path locked _)
                by_cases hlk : sk.lock <;>
                  by_cases hed : ((lookupV d sk.trueKey).getD Value.vnone).isDict <;>
                  by_cases hac : sk.action.isNone <;>
                  simp [hlk, hed, hac, subset_insertSet, List.Subset.refl]
        | vnone => simp [MRes.state]
        | vint n => simp [MRes.state]
        | vbool b => simp [MRes.state]
        | vstr s => simp [MRes.state]
        | vlist xs => simp [MRes.state]

/-- `_merge` never removes a pending lock (wrapper for a whole level). -/
theorem mergeLevel_pending_mono (fuel : Nat) (src : Dict) (dest : Value)
    (name : SrcId) (path : String) (locked : List String) (st : SubSt) :
    st.pending ⊆ ((mergeLevel fuel src dest name path locked st).state).2.pending := by
  unfold mergeLevel
  cases h : parseAll src with
  | error k => simp [MRes.state]
  | ok items => exact mergeItems_pending_mono fuel (sortItems items) dest name path locked st

/-- If some key of a level is malformed, the whole level fails to parse and
the first malformed key (in insertion order) is reported. -/
theorem parseAll_error_of_bad :
    ∀ src : Dict, (∃ p ∈ src, separate p.1 = none) →
    ∃ k, separate k = none ∧ parseAll src = .error k := by
  intro src
  induction src with
  | nil => rintro ⟨p, hp, _⟩; cases hp
  | cons hd t ih =>
    rintro ⟨p, hp, hsep⟩
    obtain ⟨k0, v0⟩ := hd
    by_cases h0 : separate k0 = none
    · exact ⟨k0, h0, by simp [parseAll, h0]⟩
    · rcases List.mem_cons.mp hp with rfl | hpt
      · exact absurd hsep h0
      · obtain ⟨k, hk, hpe⟩ := ih ⟨p, hpt, hsep⟩
        refine ⟨k, hk, ?_⟩
        cases hs0 : separate k0 with
        | none => exact absurd hs0 h0
        | some sk => simp [parseAll, hs0, hpe, Except.map]

/-- The collection loop of `source` is a filter of the provenance entries by
string prefix, keeping their values. -/
theorem collectLoop_eq :
    ∀ (ss : List (String × List SrcId)) (key : String),
    collectLoop key ss = (ss.filter (fun e => startsWithS e.1 key)).map (fun e => e.2) := by
  intro ss key
  induction ss with
  | nil => rfl
  | cons hd t ih =>
    obtain ⟨k', l⟩ := hd
    by_cases h : startsWithS k' key <;> simp [collectLoop, h, ih]


theorem lookupV_insertA_self (d : Dict) (k : String) (v : Value) :
    lookupV (insertA d k v) k = some v := by
  induction d with
  | nil => simp [insertA, lookupV]
  | cons hd t ih =>
    obtain ⟨k', v'⟩ := hd
    by_cases h : k' = k <;> simp [insertA, lookupV, h, ih]

theorem lockedKeyGo_none_iff (locked : List String) (parts : List String) :
    ∀ n, (lockedKeyGo locked parts n = none ↔
      ∀ i, 1 ≤ i → i ≤ n → String.intercalate "." (parts.take i) ∉ locked) := by
  intro n
  induction n with
  | zero =>
    simp only [lockedKeyGo]
    constructor
    · intro _ i h1 h2; omega
    · intro _; trivial
  | succ m ih =>
    simp only [lockedKeyGo]
    by_cases h : String.intercalate "." (parts.take (m + 1)) ∈ locked
    · rw [if_pos h]
      constructor
      · intro hfalse; cases hfalse
      · intro hall; exact absurd h (hall (m + 1) (by omega) (le_refl _))
    · rw [if_neg h, ih]
      constructor
      · intro hall i h1 h2
        rcases Nat.lt_or_ge i (m + 1) with hlt | hge
        · exact hall i h1 (by omega)
        · have hi : i = m + 1 := by omega
          subst hi; exact h
      · intro hall i h1 h2
        exact hall i h1 (by omega)

theorem setPath_write (v : Value) :
    ∀ (parts : List String) (node : Value) (par : Dict),
    walkParents node parts = some par →
    ∃ data', setPath node parts v = .ok data' ∧ getPath data' parts = .ok v := by
  intro parts
  induction parts with
  | nil =>
    intro node par h
    cases node <;> simp [walkParents] at h
  | cons k rest ih =>
    intro node par h
    cases node with
    | vdict d =>
      cases rest with
      | nil =>
        refine ⟨.vdict (insertA d k v), rfl, ?_⟩
        simp [getPath, lookupV_insertA_self]
      | cons r2 rrest =>
        rw [show walkParents (.vdict d) (k :: r2 :: rrest) =
            (match lookupV d k with
              | some child => walkParents child (r2 :: rrest)
              | none => none) from rfl] at h
        cases hc : lookupV d k with
        | none => rw [hc] at h; cases h
        | some child =>
          rw [hc] at h
          obtain ⟨c', hset, hget⟩ := ih child par h
          refine ⟨.vdict (insertA d k c'), ?_, ?_⟩
          · simp [setPath, hc, hset, Except.map]
          · simp [getPath, lookupV_insertA_self, hget]
    | vnone => simp [walkParents] at h
    | vint a => simp [walkParents] at h
    | vbool b => simp [walkParents] at h
    | vstr s => simp [walkParents] at h
    | vlist l => simp [walkParents] at h

theorem lookupA_mem {β κ : Type} [DecidableEq κ] :
    ∀ {l : List (κ × β)} {k : κ} {v : β}, lookupA l k = some v → (k, v) ∈ l := by
  intro l
  induction l with
  | nil => intro k v h; simp [lookupA] at h
  | cons hd t ih =>
    intro k v h
    obtain ⟨k', v'⟩ := hd
    by_cases hk : k' = k
    · subst hk
      simp [lookupA] at h
      subst h
      exact List.mem_cons_self _ _
    · simp [lookupA, hk] at h
      exact List.mem_cons_of_mem _ (ih h)

theorem lookupA_of_mem_nodup {β κ : Type} [DecidableEq κ] :
    ∀ {l : List (κ × β)} {k : κ} {v : β},
    (k, v) ∈ l → (l.map Prod.fst).Nodup → lookupA l k = some v := by
  intro l
  induction l with
  | nil => intro k v h _; cases h
  | cons hd t ih =>
    intro k v h hn
    obtain ⟨k', v'⟩ := hd
    simp only [List.map_cons, List.nodup_cons] at hn
    rcases List.mem_cons.mp h with heq | hin
    · cases heq
      simp [lookupA]
    · by_cases hk : k' = k
      · subst hk
        exact absurd (List.mem_map.mpr ⟨(k', v), hin, rfl⟩) hn.1
      · simp only [lookupA, if_neg hk]
        exact ih hin hn.2

theorem mem_insertA {β κ : Type} [DecidableEq κ] :
    ∀ {l : List (κ × β)} {k : κ} {v : β} {a : κ} {b : β},
    (a, b) ∈ insertA l k v → (a, b) ∈ l ∨ (a = k ∧ b = v) := by
  intro l
  induction l with
  | nil =>
    intro k v a b h
    simp [insertA] at h
    exact Or.inr h
  | cons hd t ih =>
    intro k v a b h
    obtain ⟨k', v'⟩ := hd
    by_cases hk : k' = k
    · subst hk
      simp only [insertA, if_pos rfl] at h
      rcases List.mem_cons.mp h with heq | hin
      · cases heq; exact Or.inr ⟨rfl, rfl⟩
      · exact Or.inl (List.mem_cons_of_mem _ hin)
    · simp only [insertA, if_neg hk] at h
      rcases List.mem_cons.mp h with heq | hin
      · cases heq; exact Or.inl (List.mem_cons_self _ _)
      · rcases ih hin with h' | h'
        · exact Or.inl (List.mem_cons_of_mem _ h')
        · exact Or.inr h'

theorem addPaths_inv (full : List (String × List SrcId)) (p0 : String)
    (justL : List SrcId) (hjl : lookupA full p0 = some justL) :
    ∀ (srcs : List SrcId) (acc acc' : List (SrcId × List String)),
    (∀ s ∈ srcs, s ∈ justL) →
    (∀ s ps p, (s, ps) ∈ acc → p ∈ ps → ∃ l, lookupA full p = some l ∧ s ∈ l) →
    addPaths acc p0 srcs = .ok acc' →
    (∀ s ps p, (s, ps) ∈ acc' → p ∈ ps → ∃ l, lookupA full p = some l ∧ s ∈ l) := by
  intro srcs
  induction srcs with
  | nil =>
    intro acc acc' _ hinv h
    simp [addPaths] at h
    subst h
    exact hinv
  | cons s0 rest ih =>
    intro acc acc' hj hinv h
    simp only [addPaths] at h
    cases hla : lookupA acc s0 with
    | none => rw [hla] at h; cases h
    | some ps0 =>
      rw [hla] at h
      refine ih (insertA acc s0 (ps0 ++ [p0])) acc'
        (fun s hs => hj s (List.mem_cons_of_mem _ hs)) ?_ h
      intro s ps p hmem hp
      rcases mem_insertA hmem with hin | ⟨heq1, heq2⟩
      · exact hinv s ps p hin hp
      · rw [heq2] at hp
        rcases List.mem_append.mp hp with hp' | hp'
        · obtain ⟨l, h1, h2⟩ := hinv s0 ps0 p (lookupA_mem hla) hp'
          exact ⟨l, h1, by rw [heq1]; exact h2⟩
        · have hpp : p = p0 := by simpa using hp'
          subst hpp
          exact ⟨justL, hjl, by rw [heq1]; exact hj s0 (List.mem_cons_self _ _)⟩

theorem srcFold_inv (full : List (String × List SrcId))
    (hn : (full.map Prod.fst).Nodup) :
    ∀ (entries : List (String × List SrcId)) (acc m : List (SrcId × List String)),
    (∀ e ∈ entries, e ∈ full) →
    (∀ s ps p, (s, ps) ∈ acc → p ∈ ps → ∃ l, lookupA full p = some l ∧ s ∈ l) →
    srcFold acc entries = .ok m →
    (∀ s ps p, (s, ps) ∈ m → p ∈ ps → ∃ l, lookupA full p = some l ∧ s ∈ l) := by
  intro entries
  induction entries with
  | nil =>
    intro acc m _ hinv h
    simp [srcFold] at h
    subst h
    exact hinv
  | cons e t ih =>
    intro acc m hsub hinv h
    obtain ⟨p0, srcs⟩ := e
    simp only [srcFold] at h
    cases hap : addPaths acc p0 srcs with
    | error e2 => rw [hap] at h; cases h
    | ok acc' =>
      rw [hap] at h
      have hj0 : lookupA full p0 = some srcs :=
        lookupA_of_mem_nodup (hsub _ (List.mem_cons_self _ _)) hn
      have hinv' := addPaths_inv full p0 srcs hj0 srcs acc acc' (fun s hs => hs) hinv hap
      exact ih acc' m (fun e2 he => hsub e2 (List.mem_cons_of_mem _ he)) hinv' h


theorem lexLeB_total : ∀ a b : List Nat, lexLeB a b = true ∨ lexLeB b a = true := by
  intro a
  induction a with
  | nil => intro b; exact Or.inl rfl
  | cons x xs ih =>
    intro b
    cases b with
    | nil => exact Or.inr rfl
    | cons y ys =>
      rcases Nat.lt_trichotomy x y with h | h | h
      · exact Or.inl (by simp [lexLeB, h])
      · subst h
        rcases ih ys with h' | h'
        · exact Or.inl (by simp [lexLeB, Nat.lt_irrefl, h'])
        · exact Or.inr (by simp [lexLeB, Nat.lt_irrefl, h'])
      · exact Or.inr (by simp [lexLeB, h])

theorem lexLeB_trans :
    ∀ a b c : List Nat, lexLeB a b = true → lexLeB b c = true → lexLeB a c = true := by
  intro a
  induction a with
  | nil => intro b c _ _; rfl
  | cons x xs ih =>
    intro b c h1 h2
    cases b with
    | nil => simp [lexLeB] at h1
    | cons y ys =>
      cases c with
      | nil => simp [lexLeB] at h2
      | cons z zs =>
        simp only [lexLeB] at h1 h2 ⊢
        by_cases hxy : x < y
        · by_cases hyz : y < z
          · simp [Nat.lt_trans hxy hyz]
          · by_cases hzy : z < y
            · simp [hyz, hzy] at h2
            · have hyz' : y = z := by omega
              subst hyz'
              simp [hxy]
        · by_cases hyx : y < x
          · simp [hxy, hyx] at h1
          · have hxy' : x = y := by omega
            subst hxy'
            by_cases hyz : x < z
            · simp [hyz]
            · by_cases hzy : z < x
              · simp [hyz, hzy] at h2
              · have hxz : x = z := by omega
                subst hxz
                simp [Nat.lt_irrefl] at h1 h2 ⊢
                exact ih ys zs h1 h2

theorem lexLeB_antisymm :
    ∀ a b : List Nat, lexLeB a b = true → lexLeB b a = true → a = b := by
  intro a
  induction a with
  | nil =>
    intro b h1 h2
    cases b with
    | nil => rfl
    | cons y ys => simp [lexLeB] at h2
  | cons x xs ih =>
    intro b h1 h2
    cases b with
    | nil => simp [lexLeB] at h1
    | cons y ys =>
      simp only [lexLeB] at h1 h2
      rcases Nat.lt_trichotomy x y with h | h | h
      · simp [Nat.lt_asymm h, h] at h2
      · subst h
        simp only [Nat.lt_irrefl, if_false] at h1 h2
        rw [ih ys h1 h2]
      · simp [Nat.lt_asymm h, h] at h1

theorem mapShift_zero_eq :
    ∀ (a b : List Char) (ra rb : List Nat),
    a.map (fun c => c.toNat + 1) ++ 0 :: ra = b.map (fun c => c.toNat + 1) ++ 0 :: rb →
    a = b ∧ ra = rb := by
  intro a
  induction a with
  | nil =>
    intro b ra rb h
    cases b with
    | nil => simpa using h
    | cons c t => simp at h
  | cons c t ih =>
    intro b ra rb h
    cases b with
    | nil => simp at h
    | cons c' t' =>
      simp only [List.map_cons, List.cons_append, List.cons.injEq] at h
      obtain ⟨h1, h2⟩ := h
      have hc : c = c' := by
        have hn : c.toNat = c'.toNat := by omega
        have hval : c.val.toNat = c'.val.toNat := hn
        exact Char.eq_of_val_eq (UInt32.toNat.inj hval)
      obtain ⟨ht, hr⟩ := ih t' ra rb h2
      exact ⟨by rw [hc, ht], hr⟩

theorem skeyL_inj_trueKey (sk sk' : SepKey) (h : skeyL sk = skeyL sk') :
    sk.trueKey = sk'.trueKey := by
  unfold skeyL at h
  have h' := (mapShift_zero_eq _ _ _ _ h).1
  cases htk : sk.trueKey with
  | mk da =>
    cases htk' : sk'.trueKey with
    | mk db =>
      rw [htk, htk'] at h'
      exact congrArg String.mk (by simpa [String.toList] using h')

theorem skey_nodup_of_trueKey_nodup (items : List (SepKey × Value))
    (h : (items.map (fun it => it.1.trueKey)).Nodup) :
    (items.map (fun it => skeyL it.1)).Nodup := by
  simp only [List.Nodup, List.pairwise_map] at h ⊢
  exact h.imp (fun hab hk => hab (skeyL_inj_trueKey _ _ hk))

theorem sortItems_eq_of_perm (items₁ items₂ : List (SepKey × Value))
    (hperm : items₁.Perm items₂)
    (hnd : (items₁.map (fun it => it.1.trueKey)).Nodup) :
    sortItems items₁ = sortItems items₂ := by
  haveI : IsTotal (SepKey × Value) itemLe :=
    ⟨fun a b => lexLeB_total (skeyL a.1) (skeyL b.1)⟩
  haveI : IsTrans (SepKey × Value) itemLe :=
    ⟨fun a b c h1 h2 => lexLeB_trans _ _ _ h1 h2⟩
  haveI : IsAntisymm (SepKey × Value) itemKeyLt :=
    ⟨fun a b h1 h2 => absurd (lexLeB_antisymm _ _ h1.1 h2.1) h1.2⟩
  have hs₁ := List.sorted_insertionSort itemLe items₁
  have hs₂ := List.sorted_insertionSort itemLe items₂
  have hp₁ := List.perm_insertionSort itemLe items₁
  have hp₂ := List.perm_insertionSort itemLe items₂
  have hknd : (items₁.map (fun it => skeyL it.1)).Nodup :=
    skey_nodup_of_trueKey_nodup items₁ hnd
  have hknd₁ : ((List.insertionSort itemLe items₁).map (fun it => skeyL it.1)).Nodup :=
    ((hp₁.map _).nodup_iff).mpr hknd
  have hknd₂ : ((List.insertionSort itemLe items₂).map (fun it => skeyL it.1)).Nodup :=
    (((hp₂.trans hperm.symm).map _).nodup_iff).mpr hknd
  have hstrict₁ : List.Sorted itemKeyLt (List.insertionSort itemLe items₁) := by
    have hne : List.Pairwise (fun a b : SepKey × Value => skeyL a.1 ≠ skeyL b.1)
        (List.insertionSort itemLe items₁) := by
      simpa [List.Nodup, List.pairwise_map] using hknd₁
    exact (hs₁.and hne).imp (fun h => h)
  have hstrict₂ : List.Sorted itemKeyLt (List.insertionSort itemLe items₂) := by
    have hne : List.Pairwise (fun a b : SepKey × Value => skeyL a.1 ≠ skeyL b.1)
        (List.insertionSort itemLe items₂) := by
      simpa [List.Nodup, List.pairwise_map] using hknd₂
    exact (hs₂.and hne).imp (fun h => h)
  exact List.eq_of_perm_of_sorted (hp₁.trans (hperm.trans hp₂.symm)) hstrict₁ hstrict₂

theorem parseAll_cons {k : String} {v : Value} {t : Dict}
    {items : List (SepKey × Value)} :
    parseAll ((k, v) :: t) = .ok items ↔
    ∃ sk t', separate k = some sk ∧ parseAll t = .ok t' ∧ items = (sk, v) :: t' := by
  constructor
  · intro h
    cases hs : separate k with
    | none => simp [parseAll, hs] at h
    | some sk =>
      cases hp : parseAll t with
      | error e => simp [parseAll, hs, hp, Except.map] at h
      | ok t' =>
        simp [parseAll, hs, hp, Except.map] at h
        exact ⟨sk, t', rfl, rfl, h.symm⟩
  · rintro ⟨sk, t', h1, h2, rfl⟩
    simp [parseAll, h1, h2, Except.map]

theorem parseAll_perm :
    ∀ {l₁ l₂ : Dict} {items : List (SepKey × Value)},
    l₁.Perm l₂ → parseAll l₁ = .ok items →
    ∃ items₂, parseAll l₂ = .ok items₂ ∧ items.Perm items₂ := by
  intro l₁ l₂ items hperm
  induction hperm generalizing items with
  | nil => intro h; exact ⟨items, h, List.Perm.refl _⟩
  | cons x h' ih =>
    intro h
    obtain ⟨x1, x2⟩ := x
    obtain ⟨sk, t', h1, h2, rfl⟩ := parseAll_cons.mp h
    obtain ⟨items₂, hp₂, hperm₂⟩ := ih h2
    exact ⟨(sk, x2) :: items₂, parseAll_cons.mpr ⟨sk, items₂, h1, hp₂, rfl⟩,
      hperm₂.cons _⟩
  | swap x y l =>
    intro h
    obtain ⟨y1, y2⟩ := y
    obtain ⟨x1, x2⟩ := x
    obtain ⟨sky, t1, hy, h2, rfl⟩ := parseAll_cons.mp h
    obtain ⟨skx, t2, hx, h3, rfl⟩ := parseAll_cons.mp h2
    refine ⟨(skx, x2) :: (sky, y2) :: t2, ?_, List.Perm.swap _ _ _⟩
    exact parseAll_cons.mpr
      ⟨skx, (sky, y2) :: t2, hx, parseAll_cons.mpr ⟨sky, t2, hy, h3, rfl⟩, rfl⟩
  | trans h1 h2 ih1 ih2 =>
    intro h
    obtain ⟨m1, hm1, hq1⟩ := ih1 h
    obtain ⟨m2, hm2, hq2⟩ := ih2 hm1
    exact ⟨m2, hm2, hq1.trans hq2⟩


theorem lookupA_insertA_self {β κ : Type} [DecidableEq κ] :
    ∀ (l : List (κ × β)) (k : κ) (v : β), lookupA (insertA l k v) k = some v := by
  intro l k v
  induction l with
  | nil => simp [insertA, lookupA]
  | cons hd t ih =>
    obtain ⟨k', v'⟩ := hd
    by_cases h : k' = k <;> simp [insertA, lookupA, h, ih]

theorem lookupA_insertA_ne {β κ : Type} [DecidableEq κ] :
    ∀ (l : List (κ × β)) (k q : κ) (v : β), q ≠ k →
    lookupA (insertA l k v) q = lookupA l q := by
  intro l k q v hne
  induction l with
  | nil => simp [insertA, lookupA, Ne.symm hne]
  | cons hd t ih =>
    obtain ⟨k', v'⟩ := hd
    by_cases h : k' = k
    · subst h
      simp [insertA, lookupA, Ne.symm hne]
    · by_cases h2 : k' = q <;> simp [insertA, lookupA, h, h2, hne, ih]

theorem lookupA_append_one_ne {β κ : Type} [DecidableEq κ] :
    ∀ (l : List (κ × β)) (k q : κ) (v : β), q ≠ k →
    lookupA (l ++ [(k, v)]) q = lookupA l q := by
  intro l k q v hne
  induction l with
  | nil => simp [lookupA, Ne.symm hne]
  | cons hd t ih =>
    obtain ⟨k', v'⟩ := hd
    by_cases h : k' = q <;> simp [lookupA, h, ih]

theorem lookupA_appendSource_ne (ss : List (String × List SrcId)) (k q : String)
    (n : SrcId) (hne : q ≠ k) :
    lookupA (appendSource ss k n) q = lookupA ss q := by
  unfold appendSource
  cases h : lookupA ss k with
  | none => exact lookupA_append_one_ne ss k q [n] hne
  | some l =>
    by_cases hm : n ∈ l
    · simp [hm]
    · simp [hm, lookupA_insertA_ne ss k q (l ++ [n]) hne]

theorem lookupA_reset_append (ss : List (String × List SrcId)) (k : String)
    (n : SrcId) :
    lookupA (appendSource (insertA ss k []) k n) k = some [n] := by
  unfold appendSource
  rw [lookupA_insertA_self]
  simp [lookupA_insertA_self]

theorem lookupA_purge_of_not_prefix (ss : List (String × List SrcId))
    (kp q : String) (h : ¬ startsWithS q kp = true) :
    lookupA (purge ss kp) q = lookupA ss q := by
  induction ss with
  | nil => rfl
  | cons hd t ih =>
    obtain ⟨k', l⟩ := hd
    by_cases hk : k' = q
    · subst hk
      simp [purge, List.filter, h, lookupA]
    · by_cases hpx : startsWithS k' kp = true <;>
        simp [purge, List.filter, hpx, lookupA, hk, ih] <;>
        simpa [purge] using ih

theorem lookupV_insertA_ne (d : Dict) (k q : String) (v : Value) (hne : q ≠ k) :
    lookupV (insertA d k v) q = lookupV d q := by
  induction d with
  | nil => simp [insertA, lookupV, Ne.symm hne]
  | cons hd t ih =>
    obtain ⟨k', v'⟩ := hd
    by_cases h : k' = k
    · subst h
      simp [insertA, lookupV, Ne.symm hne]
    · by_cases h2 : k' = q <;> simp [insertA, lookupV, h, h2, hne, ih]

theorem insertA_eq_of_lookupV (d : Dict) (k : String) (v : Value)
    (h : lookupV d k = some v) : insertA d k v = d := by
  induction d with
  | nil => simp [lookupV] at h
  | cons hd t ih =>
    obtain ⟨k', v'⟩ := hd
    by_cases hk : k' = k
    · subst hk
      simp [lookupV] at h
      simp [insertA, h]
    · simp [lookupV, hk] at h
      simp [insertA, hk, ih h]

theorem startsWithS_self (s : String) : startsWithS s s = true := by
  simp [startsWithS, List.isPrefixOf_iff_prefix]

theorem startsWithS_trans {a b c : String} (h1 : startsWithS a b = true)
    (h2 : startsWithS b c = true) : startsWithS a c = true := by
  simp only [startsWithS, List.isPrefixOf_iff_prefix] at h1 h2 ⊢
  exact h2.trans h1

theorem toList_append (a b : String) : (a ++ b).toList = a.toList ++ b.toList := by
  cases a; cases b; rfl

theorem startsWithS_append_left (p e : String) :
    startsWithS (p ++ e) p = true := by
  simp [startsWithS, List.isPrefixOf_iff_prefix, toList_append]

theorem joinPath_eq (path k : String) (h : path ≠ "") :
    joinPath path k = path ++ "." ++ k := by
  simp [joinPath, h]

theorem startsWithS_joinPath_dot (path k : String) (h : path ≠ "") :
    startsWithS (joinPath path k) (path ++ ".") = true := by
  rw [joinPath_eq path k h]
  simp only [startsWithS, List.isPrefixOf_iff_prefix, toList_append]
  exact List.prefix_append _ _

theorem startsWithS_joinPath_left (path k : String) :
    startsWithS (joinPath path k) path = true := by
  by_cases h : path = ""
  · subst h
    simp [joinPath, startsWithS, List.isPrefixOf_iff_prefix]
  · rw [joinPath_eq path k h]
    simp only [startsWithS, List.isPrefixOf_iff_prefix, toList_append]
    exact (List.prefix_append _ _).trans (List.prefix_append _ _)

theorem startsWith_joinPath_cancel {path a b : String}
    (h : startsWithS (joinPath path a) (joinPath path b) = true) :
    b.toList.isPrefixOf a.toList = true := by
  by_cases hp : path = ""
  · subst hp
    simpa [joinPath, startsWithS] using h
  · rw [joinPath_eq path a hp, joinPath_eq path b hp] at h
    simp only [startsWithS, List.isPrefixOf_iff_prefix, toList_append,
      List.append_assoc] at h
    simp only [List.isPrefixOf_iff_prefix]
    exact (List.prefix_append_right_inj _).mp ((List.prefix_append_right_inj _).mp h)

theorem mk_toList (k : String) : String.mk k.toList = k := by
  cases k; rfl

theorem separate_plain (k : String) (h : plainKey k = true) :
    separate k = some (plainSep k) := by
  simp only [plainKey, Bool.and_eq_true, Bool.not_eq_true'] at h
  obtain ⟨hne, hall⟩ := h
  cases hcs : k.toList with
  | nil => rw [hcs] at hne; simp at hne
  | cons c rest =>
    rw [hcs] at hall
    have hw : isWordChar c = true := by
      simp only [List.all_cons, Bool.and_eq_true] at hall
      exact hall.1
    have hnm : c ∉ modChars := by
      intro hc
      have h2 : c = '!' ∨ c = '?' := by simpa [modChars] using hc
      rcases h2 with h1 | h1 <;> (rw [h1] at hw; exact absurd hw (by decide))
    have hna : c ∉ actionChars := by
      intro hc
      have h2 : c = '=' ∨ c = '+' ∨ c = '-' := by simpa [actionChars] using hc
      rcases h2 with h1 | h1 | h1 <;> (rw [h1] at hw; exact absurd hw (by decide))
    have hnh : ¬ c = '#' := by
      intro hc
      rw [hc] at hw
      exact absurd hw (by decide)
    have hall' : (c :: rest).all isWordChar = true := hall
    have hcs2 : k.data = c :: rest := hcs
    simp only [separate, plainSep]
    simp [hnm, hna, hnh, hall', hcs2]
    rw [← hcs2]

theorem parseAll_plain :
    ∀ (m : Dict), plainDict m = true →
    parseAll m = .ok (m.map (fun e => (plainSep e.1, e.2))) := by
  intro m
  induction m with
  | nil => intro _; rfl
  | cons e t ih =>
    intro h
    obtain ⟨k, v⟩ := e
    simp only [plainDict, Bool.and_eq_true] at h
    obtain ⟨⟨hk, _⟩, ht⟩ := h
    simp [parseAll, separate_plain k hk, ih ht, Except.map]

theorem plainDict_mem :
    ∀ {m : Dict} {e : String × Value}, plainDict m = true → e ∈ m →
    plainKey e.1 = true ∧ plainVal e.2 = true := by
  intro m
  induction m with
  | nil => intro e _ he; cases he
  | cons hd t ih =>
    intro e h he
    obtain ⟨k, v⟩ := hd
    simp only [plainDict, Bool.and_eq_true] at h
    obtain ⟨⟨hk, hv⟩, ht⟩ := h
    rcases List.mem_cons.mp he with rfl | he'
    · exact ⟨hk, hv⟩
    · exact ih ht he'

theorem wfDict_mem :
    ∀ {m : Dict} {e : String × Value}, wfDict m = true → e ∈ m →
    wfVal e.2 = true := by
  intro m
  induction m with
  | nil => intro e _ he; cases he
  | cons hd t ih =>
    intro e h he
    obtain ⟨k, v⟩ := hd
    simp only [wfDict, Bool.and_eq_true] at h
    obtain ⟨⟨_, hv⟩, ht⟩ := h
    rcases List.mem_cons.mp he with rfl | he'
    · exact hv
    · exact ih ht he'

theorem wfDict_nodup_keys :
    ∀ {m : Dict}, wfDict m = true → (m.map Prod.fst).Nodup := by
  intro m
  induction m with
  | nil => intro _; exact List.nodup_nil
  | cons hd t ih =>
    intro h
    obtain ⟨k, v⟩ := hd
    simp only [wfDict, Bool.and_eq_true, Bool.not_eq_true'] at h
    obtain ⟨⟨hc, _⟩, ht⟩ := h
    simp only [List.map_cons, List.nodup_cons]
    refine ⟨?_, ih ht⟩
    intro hmem
    rw [List.contains_eq_any_beq, List.any_eq_false] at hc
    exact absurd (by simp : (k == k) = true) (hc k hmem)

theorem skeyL_plain {sk : SepKey} (hm : sk.modifiers = []) (ha : sk.action = none)
    (hl : sk.lock = false) :
    skeyL sk = sk.trueKey.toList.map (fun c => c.toNat + 1) ++ [0, 0, 0] := by
  simp [skeyL, hm, ha, hl]

theorem lexLeB_append_left :
    ∀ (pre u v : List Nat), lexLeB (pre ++ u) (pre ++ v) = lexLeB u v := by
  intro pre
  induction pre with
  | nil => intro u v; rfl
  | cons p t ih => intro u v; simp [lexLeB, Nat.lt_irrefl, ih]

theorem lexLeB_plain_prefix_false {a b : String}
    (hpre : b.toList <+: a.toList) (hne : b.toList ≠ a.toList) :
    lexLeB (a.toList.map (fun c => c.toNat + 1) ++ [0, 0, 0])
      (b.toList.map (fun c => c.toNat + 1) ++ [0, 0, 0]) = false := by
  obtain ⟨ext, hext⟩ := hpre
  cases hx : ext with
  | nil =>
    rw [hx, List.append_nil] at hext
    exact absurd hext hne
  | cons e erest =>
    rw [hx] at hext
    rw [← hext, List.map_append, List.append_assoc, lexLeB_append_left]
    simp [lexLeB]

theorem toList_inj {a b : String} (h : a.toList = b.toList) : a = b := by
  cases a; cases b; exact congrArg String.mk h

theorem joinPath_toList (path k : String) :
    (joinPath path k).toList =
      (if path = "" then [] else path.toList ++ ['.']) ++ k.toList := by
  by_cases h : path = "" <;> simp [joinPath, h, toList_append]

theorem joinPath_ne_empty (path k : String) (hk : k.toList ≠ []) :
    joinPath path k ≠ "" := by
  intro he
  have h2 : (joinPath path k).toList = [] := by rw [he]; rfl
  rw [joinPath_toList] at h2
  rcases List.append_eq_nil.mp h2 with ⟨_, h4⟩
  exact hk h4

mutual
theorem leafPathsV_start : ∀ (q : String) (v : Value) (p : String),
    p ∈ leafPathsV q v → startsWithS p q = true
  | q, .vdict nd, p => fun hp => leafPathsD_start q nd p hp
  | q, .vnone, p => fun hp => by
      simp [leafPathsV] at hp; rw [hp]; exact startsWithS_self q
  | q, .vint _, p => fun hp => by
      simp [leafPathsV] at hp; rw [hp]; exact startsWithS_self q
  | q, .vbool _, p => fun hp => by
      simp [leafPathsV] at hp; rw [hp]; exact startsWithS_self q
  | q, .vstr _, p => fun hp => by
      simp [leafPathsV] at hp; rw [hp]; exact startsWithS_self q
  | q, .vlist _, p => fun hp => by
      simp [leafPathsV] at hp; rw [hp]; exact startsWithS_self q

theorem leafPathsD_start : ∀ (q : String) (d : Dict) (p : String),
    p ∈ leafPathsD q d → startsWithS p q = true
  | q, [], p => fun hp => by simp [leafPathsD] at hp
  | q, (k, v) :: t, p => fun hp => by
      rw [leafPathsD] at hp
      rcases List.mem_append.mp hp with h1 | h1
      · exact startsWithS_trans (leafPathsV_start (joinPath q k) v p h1)
          (startsWithS_joinPath_left q k)
      · exact leafPathsD_start q t p h1
end

theorem leafPathsD_mem {path : String} {d : Dict} {p : String} :
    p ∈ leafPathsD path d ↔
      ∃ e ∈ d, p ∈ leafPathsV (joinPath path e.1) e.2 := by
  induction d with
  | nil => simp [leafPathsD]
  | cons e t ih =>
    obtain ⟨k, v⟩ := e
    rw [leafPathsD]
    simp only [List.mem_append, ih, List.mem_cons]
    constructor
    · rintro (h | ⟨e2, he2, hp2⟩)
      · exact ⟨(k, v), Or.inl rfl, h⟩
      · exact ⟨e2, Or.inr he2, hp2⟩
    · rintro ⟨e2, he2 | he2, hp2⟩
      · subst he2; exact Or.inl hp2
      · exact Or.inr ⟨e2, he2, hp2⟩

theorem leafPathsV_nondict {q : String} {v : Value} (h : v.isDict = false) :
    leafPathsV q v = [q] := by
  cases v <;> first | rfl | simp [Value.isDict] at h

theorem plain_sorted_not_prefix {x y : SepKey}
    (hxm : x.modifiers = []) (hxa : x.action = none) (hxl : x.lock = false)
    (hym : y.modifiers = []) (hya : y.action = none) (hyl : y.lock = false)
    (hle : lexLeB (skeyL x) (skeyL y) = true)
    (hpre : y.trueKey.toList <+: x.trueKey.toList)
    (hne : y.trueKey ≠ x.trueKey) : False := by
  rw [skeyL_plain hxm hxa hxl, skeyL_plain hym hya hyl] at hle
  have hne2 : y.trueKey.toList ≠ x.trueKey.toList := fun he => hne (toList_inj he)
  rw [lexLeB_plain_prefix_false hpre hne2] at hle
  cases hle

theorem dot_not_word {k : String} (hw : k.toList.all isWordChar = true)
    (hm : '.' ∈ k.toList) : False := by
  have := List.all_eq_true.mp hw '.' hm
  exact absurd this (by decide)

/-- No later item of a sorted, duplicate-free, plain level can touch the
head item's path or anything beneath it. -/
theorem rest_no_overlap
    (path : String) (sk : SepKey) (v : Value) (rest : List (SepKey × Value))
    (hplain : PlainPack ((sk, v) :: rest))
    (hnodup : (((sk, v) :: rest).map (fun it => it.1.trueKey)).Nodup)
    (hsorted : List.Pairwise itemLe ((sk, v) :: rest))
    (it : SepKey × Value) (hit : it ∈ rest) (p : String)
    (hp : p = joinPath path sk.trueKey ∨
      startsWithS p (joinPath path sk.trueKey ++ ".") = true)
    (hq : startsWithS p (joinPath path it.1.trueKey) = true) : False := by
  obtain ⟨hm, ha, hlk, hne0, hword, _, _⟩ :=
    hplain (sk, v) (List.mem_cons_self _ _)
  obtain ⟨hm', ha', hlk', hne0', hword', _, _⟩ :=
    hplain it (List.mem_cons_of_mem _ hit)
  have hle : itemLe (sk, v) it := (List.pairwise_cons.mp hsorted).1 it hit
  have hkk : sk.trueKey ≠ it.1.trueKey := by
    intro he
    simp only [List.map_cons, List.nodup_cons] at hnodup
    exact hnodup.1 (he ▸ List.mem_map.mpr ⟨it, hit, rfl⟩)
  -- both joined paths are list prefixes of p
  have hpk : startsWithS p (joinPath path sk.trueKey) = true := by
    rcases hp with rfl | hp'
    · exact startsWithS_self _
    · exact startsWithS_trans hp' (startsWithS_append_left _ _)
  have hA : (joinPath path sk.trueKey).toList <+: p.toList :=
    List.isPrefixOf_iff_prefix.mp hpk
  have hB : (joinPath path it.1.trueKey).toList <+: p.toList :=
    List.isPrefixOf_iff_prefix.mp hq
  rcases List.prefix_or_prefix_of_prefix hA hB with hAB | hBA
  · -- head's path is a prefix of the later item's: the later key extends the
    -- head key, impossible since the extension starts with a word character
    -- while the head's subtree paths continue with the separator
    have hkpre : sk.trueKey.toList <+: it.1.trueKey.toList := by
      have := @startsWith_joinPath_cancel path it.1.trueKey sk.trueKey
        (List.isPrefixOf_iff_prefix.mpr hAB)
      exact List.isPrefixOf_iff_prefix.mp this
    obtain ⟨ext, hext⟩ := hkpre
    cases hx : ext with
    | nil =>
      rw [hx, List.append_nil] at hext
      exact hkk (toList_inj hext)
    | cons e erest =>
      rw [hx] at hext
      have hew : e ≠ '.' := by
        intro he
        refine dot_not_word hword' ?_
        rw [← hext, he]
        exact List.mem_append.mpr (Or.inr (List.mem_cons_self _ _))
      rcases hp with rfl | hp'
      · -- p is exactly the head path, but the later path strictly extends it
        have hlen := List.IsPrefix.length_le hB
        rw [joinPath_toList, joinPath_toList, ← hext] at hlen
        simp [List.length_append] at hlen
      · -- p extends the head path by '.', the later path by a word character
        have hC : (joinPath path sk.trueKey ++ ".").toList <+: p.toList :=
          List.isPrefixOf_iff_prefix.mp hp'
        have hBdec : (joinPath path it.1.trueKey).toList =
            (joinPath path sk.trueKey).toList ++ e :: erest := by
          rw [joinPath_toList, joinPath_toList, ← hext]
          simp [List.append_assoc]
        rw [toList_append] at hC
        rw [hBdec] at hB
        have hdot : ("." : String).toList = ['.'] := rfl
        rw [hdot] at hC
        rcases List.prefix_or_prefix_of_prefix hC hB with h1 | h1
        · have h2 := (List.prefix_append_right_inj _).mp h1
          rw [List.cons_prefix_cons] at h2
          exact hew h2.1.symm
        · have h2 := (List.prefix_append_right_inj _).mp h1
          rw [List.cons_prefix_cons] at h2
          exact hew h2.1
  · -- the later item's path is a prefix of the head's: its key is a strict
    -- prefix of the head key and would have sorted strictly first
    have hkpre : it.1.trueKey.toList <+: sk.trueKey.toList := by
      have := @startsWith_joinPath_cancel path sk.trueKey it.1.trueKey
        (List.isPrefixOf_iff_prefix.mpr hBA)
      exact List.isPrefixOf_iff_prefix.mp this
    exact plain_sorted_not_prefix hm ha hlk hm' ha' hlk' hle hkpre
      (fun he => hkk he.symm)


theorem plainKey_facts {k : String} (hk : plainKey k = true) :
    k.toList ≠ [] ∧ k.toList.all isWordChar = true := by
  rw [plainKey, Bool.and_eq_true] at hk
  refine ⟨?_, hk.2⟩
  intro he
  have h1 := hk.1
  rw [he] at h1
  simp at h1

theorem sortItems_sorted (l : List (SepKey × Value)) :
    List.Pairwise itemLe (sortItems l) := by
  haveI : IsTotal (SepKey × Value) itemLe :=
    ⟨fun a b => lexLeB_total (skeyL a.1) (skeyL b.1)⟩
  haveI : IsTrans (SepKey × Value) itemLe :=
    ⟨fun a b c h1 h2 => lexLeB_trans _ _ _ h1 h2⟩
  exact List.sorted_insertionSort itemLe l

theorem subItems_plainPack {nd : Dict} (hpv : plainDict nd = true)
    (hwv : wfDict nd = true) :
    PlainPack (sortItems (nd.map (fun e => (plainSep e.1, e.2)))) := by
  intro it hit
  have h1 : it ∈ nd.map (fun e => (plainSep e.1, e.2)) :=
    (List.Perm.mem_iff (List.perm_insertionSort _ _)).mp hit
  obtain ⟨e, he, rfl⟩ := List.mem_map.mp h1
  obtain ⟨hk, hv⟩ := plainDict_mem hpv he
  obtain ⟨hne, hw⟩ := plainKey_facts hk
  exact ⟨rfl, rfl, rfl, hne, hw, hv, wfDict_mem hwv he⟩

theorem subItems_nodup {nd : Dict} (hwv : wfDict nd = true) :
    ((sortItems (nd.map (fun e => (plainSep e.1, e.2)))).map
      (fun it => it.1.trueKey)).Nodup := by
  have hperm := (List.perm_insertionSort itemLe
    (nd.map (fun e => (plainSep e.1, e.2)))).map (fun it => it.1.trueKey)
  rw [sortItems, List.Perm.nodup_iff hperm, List.map_map]
  have hfun : ((fun it : SepKey × Value => it.1.trueKey) ∘
      (fun e : String × Value => (plainSep e.1, e.2))) = Prod.fst := by
    funext e; rfl
  rw [hfun]
  exact wfDict_nodup_keys hwv

theorem mem_sortItems_map {nd : Dict} {e : String × Value} (he : e ∈ nd) :
    (plainSep e.1, e.2) ∈ sortItems (nd.map (fun x => (plainSep x.1, x.2))) := by
  refine (List.Perm.mem_iff (List.perm_insertionSort _ _)).mpr ?_
  exact List.mem_map.mpr ⟨e, he, rfl⟩

/-- One step of the loop on a plain key carrying a non-dict value: the value
is written under the key, provenance below the key is purged if a dict was
replaced, the source list for the key is reset to the current name, and the
loop continues with the rest. -/
theorem mergeItems_leaf_step (f : Nat) (sk : SepKey) (v : Value)
    (rest : List (SepKey × Value)) (d : Dict) (name : SrcId) (path : String)
    (locked : List String) (st : SubSt)
    (hl : joinPath path sk.trueKey ∉ locked)
    (hm : sk.modifiers = []) (ha : sk.action = none) (hlk : sk.lock = false)
    (hnd : v.isDict = false) :
    mergeItems (f + 1) ((sk, v) :: rest) (.vdict d) name path locked st =
      mergeItems f rest (.vdict (insertA d sk.trueKey v)) name path locked
        ⟨appendSource
          (insertA
            (if ((lookupV d sk.trueKey).getD .vnone).isDict then
              purge st.sources (joinPath path sk.trueKey)
             else st.sources)
            (joinPath path sk.trueKey) [])
          (joinPath path sk.trueKey) name, st.pending⟩ := by
  have hgate : ¬(sk.modifiers ≠ [] ∧
      applyMods sk.modifiers ((lookupV d sk.trueKey).getD .vnone) v = false) := by
    simp [hm]
  cases v with
  | vdict nd => simp [Value.isDict] at hnd
  | vnone =>
    simp only [mergeItems, if_neg hl]
    rw [if_neg hgate]
    simp only [ha, hlk]
    by_cases hed : ((lookupV d sk.trueKey).getD .vnone).isDict = true <;>
      simp [hed, Option.isNone]
  | vint n =>
    simp only [mergeItems, if_neg hl]
    rw [if_neg hgate]
    simp only [ha, hlk]
    by_cases hed : ((lookupV d sk.trueKey).getD .vnone).isDict = true <;>
      simp [hed, Option.isNone]
  | vbool b =>
    simp only [mergeItems, if_neg hl]
    rw [if_neg hgate]
    simp only [ha, hlk]
    by_cases hed : ((lookupV d sk.trueKey).getD .vnone).isDict = true <;>
      simp [hed, Option.isNone]
  | vstr s =>
    simp only [mergeItems, if_neg hl]
    rw [if_neg hgate]
    simp only [ha, hlk]
    by_cases hed : ((lookupV d sk.trueKey).getD .vnone).isDict = true <;>
      simp [hed, Option.isNone]
  | vlist l =>
    simp only [mergeItems, if_neg hl]
    rw [if_neg hgate]
    simp only [ha, hlk]
    by_cases hed : ((lookupV d sk.trueKey).getD .vnone).isDict = true <;>
      simp [hed, Option.isNone]

theorem plain_leaf_case (f : Nat) (IH : PlainIH f)
    (sk : SepKey) (v : Value) (rest : List (SepKey × Value)) (d : Dict)
    (name : SrcId) (path : String) (locked : List String) (st : SubSt)
    (dest' : Value) (st' : SubSt)
    (hplain : PlainPack ((sk, v) :: rest))
    (hnodup : (((sk, v) :: rest).map (fun it => it.1.trueKey)).Nodup)
    (hsorted : List.Pairwise itemLe ((sk, v) :: rest))
    (hl : joinPath path sk.trueKey ∉ locked)
    (hnd : v.isDict = false)
    (hrun : mergeItems (f + 1) ((sk, v) :: rest) (.vdict d) name path locked st =
      .ok (dest', st')) :
    PlainConcl (f + 1) ((sk, v) :: rest) (.vdict d) name path locked st dest' st' := by
  obtain ⟨hm, ha, hlk, hne0, hword, hpv, hwv⟩ := hplain _ (List.mem_cons_self _ _)
  have hplainR : PlainPack rest := fun it hit => hplain it (List.mem_cons_of_mem _ hit)
  have hnodupR : (rest.map (fun it => it.1.trueKey)).Nodup := by
    simp only [List.map_cons, List.nodup_cons] at hnodup; exact hnodup.2
  have hknotin : sk.trueKey ∉ rest.map (fun it => it.1.trueKey) := by
    simp only [List.map_cons, List.nodup_cons] at hnodup; exact hnodup.1
  have hsortedR := (List.pairwise_cons.mp hsorted).2
  rw [mergeItems_leaf_step f sk v rest d name path locked st hl hm ha hlk hnd] at hrun
  set st4 : SubSt := ⟨appendSource (insertA
      (if ((lookupV d sk.trueKey).getD .vnone).isDict then
        purge st.sources (joinPath path sk.trueKey) else st.sources)
      (joinPath path sk.trueKey) []) (joinPath path sk.trueKey) name,
      st.pending⟩ with hst4
  obtain ⟨rPend, rScope, rFrame, rDict, rReplay, rProv⟩ :=
    IH rest (.vdict (insertA d sk.trueKey v)) name path locked st4 dest' st'
      hplainR hnodupR hsortedR hrun
  have hrestne : ∀ it ∈ rest, it.1.trueKey ≠ sk.trueKey := by
    intro it hit heq
    exact hknotin (heq ▸ List.mem_map.mpr ⟨it, hit, rfl⟩)
  have hframe_k : dLook dest' sk.trueKey = some v := by
    have h1 := rFrame sk.trueKey hrestne
    rw [h1]
    simp only [dLook]
    exact lookupV_insertA_self d sk.trueKey v
  have hsrc4 : ∀ q, q ≠ joinPath path sk.trueKey →
      ¬ startsWithS q (joinPath path sk.trueKey) = true →
      lookupA st4.sources q = lookupA st.sources q := by
    intro q hq hsw
    rw [hst4]
    dsimp only
    rw [lookupA_appendSource_ne _ _ _ _ hq, lookupA_insertA_ne _ _ _ _ hq]
    by_cases hed : ((lookupV d sk.trueKey).getD .vnone).isDict = true
    · rw [if_pos hed]; exact lookupA_purge_of_not_prefix _ _ _ hsw
    · rw [if_neg hed]
  refine ⟨?_, ?_, ?_, ?_, ?_, ?_⟩
  · rw [rPend, hst4]
  · intro q hq
    by_cases hq1 : lookupA st4.sources q = lookupA st.sources q
    · have hq2 : lookupA st'.sources q ≠ lookupA st4.sources q := by
        rw [hq1]; exact hq
      obtain ⟨it, hit, hsw⟩ := rScope q hq2
      exact ⟨it, List.mem_cons_of_mem _ hit, hsw⟩
    · refine ⟨(sk, v), List.mem_cons_self _ _, ?_⟩
      by_contra hsw
      by_cases hqe : q = joinPath path sk.trueKey
      · rw [hqe] at hsw; exact hsw (startsWithS_self _)
      · exact hq1 (hsrc4 q hqe hsw)
  · intro k2 hk2
    have h1 := rFrame k2 (fun it hit => hk2 it (List.mem_cons_of_mem _ hit))
    rw [h1]
    simp only [dLook]
    exact lookupV_insertA_ne d sk.trueKey k2 v
      (fun he => hk2 (sk, v) (List.mem_cons_self _ _) he.symm)
  · intro d0 _
    exact rDict _ rfl
  · intro name₂ st₂
    obtain ⟨d1, hd1⟩ := rDict _ rfl
    have hval : lookupV d1 sk.trueKey = some v := by
      have h2 := hframe_k
      rw [hd1] at h2
      simpa [dLook] using h2
    obtain ⟨st₂', hrest₂⟩ := rReplay name₂
      ⟨appendSource (insertA
        (if ((lookupV d1 sk.trueKey).getD .vnone).isDict then
          purge st₂.sources (joinPath path sk.trueKey) else st₂.sources)
        (joinPath path sk.trueKey) []) (joinPath path sk.trueKey) name₂,
        st₂.pending⟩
    refine ⟨st₂', ?_⟩
    have hgoal : mergeItems (f + 1) ((sk, v) :: rest) dest' name₂ path locked st₂ =
        mergeItems f rest dest' name₂ path locked
          ⟨appendSource (insertA
            (if ((lookupV d1 sk.trueKey).getD .vnone).isDict then
              purge st₂.sources (joinPath path sk.trueKey) else st₂.sources)
            (joinPath path sk.trueKey) []) (joinPath path sk.trueKey) name₂,
            st₂.pending⟩ := by
      rw [hd1]
      rw [mergeItems_leaf_step f sk v rest d1 name₂ path locked st₂ hl hm ha hlk hnd]
      rw [insertA_eq_of_lookupV d1 sk.trueKey v hval]
    rw [hgoal]
    exact hrest₂
  · intro it hit p hp
    rcases List.mem_cons.mp hit with rfl | hit'
    · simp only [pathsOfItem] at hp
      rw [leafPathsV_nondict hnd] at hp
      have hpe : p = joinPath path sk.trueKey := by simpa using hp
      subst hpe
      have hbase : lookupA st4.sources (joinPath path sk.trueKey) = some [name] := by
        rw [hst4]; dsimp only; exact lookupA_reset_append _ _ _
      by_cases hpres : lookupA st'.sources (joinPath path sk.trueKey) =
          lookupA st4.sources (joinPath path sk.trueKey)
      · rw [hpres]; exact hbase
      · obtain ⟨it', hit', hsw'⟩ := rScope _ hpres
        exact absurd hsw' (by
          intro hsw
          exact rest_no_overlap path sk v rest hplain hnodup hsorted it' hit' _
            (Or.inl rfl) hsw)
    · exact rProv it hit' p hp

theorem plain_dict_assemble (f : Nat) (IH : PlainIH f)
    (sk : SepKey) (nd : Dict) (rest : List (SepKey × Value)) (d P2 : Dict)
    (P1 : Value)
    (name : SrcId) (path : String) (locked : List String) (st stS : SubSt)
    (node' dest' : Value) (st' : SubSt)
    (hplain : PlainPack ((sk, .vdict nd) :: rest))
    (hnodup : (((sk, .vdict nd) :: rest).map (fun it => it.1.trueKey)).Nodup)
    (hsorted : List.Pairwise itemLe ((sk, .vdict nd) :: rest))
    (hl : joinPath path sk.trueKey ∉ locked)
    (hP2look : ∀ q, q ≠ sk.trueKey → lookupV P2 q = lookupV d q)
    (hsub : mergeItems f (sortItems (nd.map (fun e => (plainSep e.1, e.2)))) P1
      name (joinPath path sk.trueKey) locked st = .ok (node', stS))
    (hrun : mergeItems f rest (.vdict (insertA P2 sk.trueKey node')) name path
      locked stS = .ok (dest', st')) :
    PlainConcl (f + 1) ((sk, .vdict nd) :: rest) (.vdict d) name path locked st
      dest' st' := by
  obtain ⟨hm, ha, hlk, hne0, hword, hpv, hwv⟩ := hplain _ (List.mem_cons_self _ _)
  dsimp only at hm ha hlk hne0 hword hpv hwv
  have hpd : plainDict nd = true := by simpa [plainVal] using hpv
  have hwd : wfDict nd = true := by simpa [wfVal] using hwv
  have hpa := parseAll_plain nd hpd
  have hplainR : PlainPack rest := fun it hit => hplain it (List.mem_cons_of_mem _ hit)
  have hnodupR : (rest.map (fun it => it.1.trueKey)).Nodup := by
    simp only [List.map_cons, List.nodup_cons] at hnodup; exact hnodup.2
  have hknotin : sk.trueKey ∉ rest.map (fun it => it.1.trueKey) := by
    simp only [List.map_cons, List.nodup_cons] at hnodup; exact hnodup.1
  have hsortedR := (List.pairwise_cons.mp hsorted).2
  obtain ⟨sPend, sScope, sFrame, sDict, sReplay, sProv⟩ :=
    IH (sortItems (nd.map (fun e => (plainSep e.1, e.2)))) P1 name
      (joinPath path sk.trueKey) locked st node' stS
      (subItems_plainPack hpd hwd) (subItems_nodup hwd) (sortItems_sorted _) hsub
  obtain ⟨rPend, rScope, rFrame, rDict, rReplay, rProv⟩ :=
    IH rest (.vdict (insertA P2 sk.trueKey node')) name path locked stS dest' st'
      hplainR hnodupR hsortedR hrun
  have hrestne : ∀ it ∈ rest, it.1.trueKey ≠ sk.trueKey := by
    intro it hit heq
    exact hknotin (heq ▸ List.mem_map.mpr ⟨it, hit, rfl⟩)
  have hframe_k : dLook dest' sk.trueKey = some node' := by
    have h1 := rFrame sk.trueKey hrestne
    rw [h1]
    simp only [dLook]
    exact lookupV_insertA_self P2 sk.trueKey node'
  refine ⟨?_, ?_, ?_, ?_, ?_, ?_⟩
  · exact rPend.trans sPend
  · intro q hq
    by_cases hq1 : lookupA stS.sources q = lookupA st.sources q
    · have hq2 : lookupA st'.sources q ≠ lookupA stS.sources q := by
        rw [hq1]; exact hq
      obtain ⟨it, hit, hsw⟩ := rScope q hq2
      exact ⟨it, List.mem_cons_of_mem _ hit, hsw⟩
    · obtain ⟨it2, hit2, hsw2⟩ := sScope q hq1
      exact ⟨(sk, .vdict nd), List.mem_cons_self _ _,
        startsWithS_trans hsw2 (startsWithS_joinPath_left _ _)⟩
  · intro k2 hk2
    have h1 := rFrame k2 (fun it hit => hk2 it (List.mem_cons_of_mem _ hit))
    rw [h1]
    simp only [dLook]
    have hk2ne : k2 ≠ sk.trueKey :=
      fun he => hk2 (sk, .vdict nd) (List.mem_cons_self _ _) he.symm
    rw [lookupV_insertA_ne P2 sk.trueKey k2 node' hk2ne]
    exact hP2look k2 hk2ne
  · intro d0 _
    exact rDict _ rfl
  · intro name₂ st₂
    obtain ⟨d1, hd1⟩ := rDict _ rfl
    have hval : lookupV d1 sk.trueKey = some node' := by
      have h2 := hframe_k
      rw [hd1] at h2
      simpa [dLook] using h2
    have hgate₂ : ¬(sk.modifiers ≠ [] ∧
        applyMods sk.modifiers ((lookupV d1 sk.trueKey).getD .vnone)
          (.vdict nd) = false) := by
      simp [hm]
    obtain ⟨stS₂, hsub₂⟩ := sReplay name₂ st₂
    obtain ⟨st₂', hrest₂⟩ := rReplay name₂ stS₂
    refine ⟨st₂', ?_⟩
    have hgoal : mergeItems (f + 1) ((sk, .vdict nd) :: rest) (.vdict d1) name₂
        path locked st₂ = mergeItems f rest (.vdict d1) name₂ path locked stS₂ := by
      simp only [mergeItems, if_neg hl]
      try dsimp only
      rw [if_neg hgate₂]
      simp only [ha]
      try dsimp only
      rw [hval]
      try dsimp only
      rw [hpa]
      try dsimp only
      rw [hsub₂]
      try dsimp only
      simp only [hlk, Bool.false_or, Bool.false_eq_true, if_false]
      rw [insertA_eq_of_lookupV d1 sk.trueKey node' hval]
    rw [hd1, hgoal, ← hd1]
    exact hrest₂
  · intro it hit p hp
    rcases List.mem_cons.mp hit with rfl | hit'
    · simp only [pathsOfItem, leafPathsV] at hp
      obtain ⟨e, he, hpe⟩ := leafPathsD_mem.mp hp
      have hitem := mem_sortItems_map he
      have hsp := sProv _ hitem p hpe
      by_cases hpres : lookupA st'.sources p = lookupA stS.sources p
      · rw [hpres]; exact hsp
      · obtain ⟨it', hit', hsw'⟩ := rScope p hpres
        exfalso
        refine rest_no_overlap path sk (.vdict nd) rest hplain hnodup hsorted
          it' hit' p (Or.inr ?_) hsw'
        exact startsWithS_trans (leafPathsV_start _ _ _ hpe)
          (startsWithS_joinPath_dot (joinPath path sk.trueKey) e.1
            (joinPath_ne_empty path sk.trueKey hne0))
    · exact rProv it hit' p hp

theorem plain_dict_case (f : Nat) (IH : PlainIH f)
    (sk : SepKey) (nd : Dict) (rest : List (SepKey × Value)) (d : Dict)
    (name : SrcId) (path : String) (locked : List String) (st : SubSt)
    (dest' : Value) (st' : SubSt)
    (hplain : PlainPack ((sk, .vdict nd) :: rest))
    (hnodup : (((sk, .vdict nd) :: rest).map (fun it => it.1.trueKey)).Nodup)
    (hsorted : List.Pairwise itemLe ((sk, .vdict nd) :: rest))
    (hl : joinPath path sk.trueKey ∉ locked)
    (hrun : mergeItems (f + 1) ((sk, .vdict nd) :: rest) (.vdict d) name path
      locked st = .ok (dest', st')) :
    PlainConcl (f + 1) ((sk, .vdict nd) :: rest) (.vdict d) name path locked st
      dest' st' := by
  obtain ⟨hm, ha, hlk, hne0, hword, hpv, hwv⟩ := hplain _ (List.mem_cons_self _ _)
  dsimp only at hm ha hlk hne0 hword hpv hwv
  have hpd : plainDict nd = true := by simpa [plainVal] using hpv
  have hwd : wfDict nd = true := by simpa [wfVal] using hwv
  have hpa := parseAll_plain nd hpd
  have hgate : ¬(sk.modifiers ≠ [] ∧
      applyMods sk.modifiers ((lookupV d sk.trueKey).getD .vnone)
        (.vdict nd) = false) := by
    simp [hm]
  simp only [mergeItems, if_neg hl] at hrun
  try dsimp only at hrun
  rw [if_neg hgate] at hrun
  simp only [ha] at hrun
  try dsimp only at hrun
  cases hex : lookupV d sk.trueKey with
  | some ex =>
    simp only [hex] at hrun
    try dsimp only at hrun
    rw [hpa] at hrun
    try dsimp only at hrun
    cases hsub : mergeItems f (sortItems (nd.map (fun e => (plainSep e.1, e.2))))
        ex name (joinPath path sk.trueKey) locked st with
    | err e pr' =>
      obtain ⟨node', stS⟩ := pr'
      rw [hsub] at hrun
      simp at hrun
    | ok pr' =>
      obtain ⟨node', stS⟩ := pr'
      rw [hsub] at hrun
      try dsimp only at hrun
      simp only [hlk, Bool.false_or, Bool.false_eq_true, if_false] at hrun
      exact plain_dict_assemble f IH sk nd rest d d ex name path locked st stS
        node' dest' st' hplain hnodup hsorted hl (fun q _ => rfl) hsub hrun
  | none =>
    simp only [hex] at hrun
    try dsimp only at hrun
    rw [hpa] at hrun
    try dsimp only at hrun
    cases hsub : mergeItems f (sortItems (nd.map (fun e => (plainSep e.1, e.2))))
        (.vdict []) name (joinPath path sk.trueKey) locked st with
    | err e pr' =>
      obtain ⟨node', stS⟩ := pr'
      rw [hsub] at hrun
      simp at hrun
    | ok pr' =>
      obtain ⟨node', stS⟩ := pr'
      rw [hsub] at hrun
      try dsimp only at hrun
      simp only [hlk, Bool.false_or, Bool.false_eq_true, if_false] at hrun
      exact plain_dict_assemble f IH sk nd rest d
        (insertA d sk.trueKey (.vdict [])) (.vdict []) name path locked st stS
        node' dest' st' hplain hnodup hsorted hl
        (fun q hq => lookupV_insertA_ne d sk.trueKey q _ hq) hsub hrun

/-- A run of the `_merge` loop over plain keys (no modifiers, actions, or
locks, well-formed nested dicts, unique keys, sorted): pending locks are
untouched, provenance changes only at or below the written paths, untouched
keys keep their values, rerunning the same items on the result is a no-op on
the tree, and every written leaf path is attributed to exactly the current
name. -/
theorem mergeItems_plain : ∀ fuel : Nat, PlainIH fuel := by
  intro fuel
  induction fuel with
  | zero =>
    intro items dest name path locked st dest' st' _ _ _ hrun
    simp [mergeItems] at hrun
  | succ f IH =>
    intro items dest name path locked st dest' st' hplain hnodup hsorted hrun
    cases items with
    | nil =>
      simp only [mergeItems, MRes.ok.injEq, Prod.mk.injEq] at hrun
      obtain ⟨rfl, rfl⟩ := hrun
      refine ⟨rfl, ?_, ?_, ?_, ?_, ?_⟩
      · intro q hq; exact absurd rfl hq
      · intro k2 _; rfl
      · intro d0 hd; exact ⟨d0, hd⟩
      · intro name₂ st₂; exact ⟨st₂, rfl⟩
      · intro it hit; simp at hit
    | cons skv rest =>
      obtain ⟨sk, v⟩ := skv
      by_cases hl : joinPath path sk.trueKey ∈ locked
      · simp [mergeItems, if_pos hl] at hrun
      · cases dest with
        | vdict d =>
          cases v with
          | vdict nd =>
            exact plain_dict_case f IH sk nd rest d name path locked st dest' st'
              hplain hnodup hsorted hl hrun
          | vnone =>
            exact plain_leaf_case f IH sk _ rest d name path locked st dest' st'
              hplain hnodup hsorted hl rfl hrun
          | vint n =>
            exact plain_leaf_case f IH sk _ rest d name path locked st dest' st'
              hplain hnodup hsorted hl rfl hrun
          | vbool b =>
            exact plain_leaf_case f IH sk _ rest d name path locked st dest' st'
              hplain hnodup hsorted hl rfl hrun
          | vstr s =>
            exact plain_leaf_case f IH sk _ rest d name path locked st dest' st'
              hplain hnodup hsorted hl rfl hrun
          | vlist l =>
            exact plain_leaf_case f IH sk _ rest d name path locked st dest' st'
              hplain hnodup hsorted hl rfl hrun
        | vnone => simp [mergeItems, if_neg hl] at hrun
        | vint n => simp [mergeItems, if_neg hl] at hrun
        | vbool b => simp [mergeItems, if_neg hl] at hrun
        | vstr s => simp [mergeItems, if_neg hl] at hrun
        | vlist l => simp [mergeItems, if_neg hl] at hrun

-- ======================================================================== --
--  Claim theorems                                                          --
-- ======================================================================== --

/-- C1, counterexample.  Merging `{'#a': 1, 'z': 2}` into a configuration
with `z` locked stages a lock on `a` and then aborts with `LockError` on `z`.
The staged lock is not active after the abort (first half of the claim), but
it is not discarded: the later, unrelated, successful merge `{'c': 3}`
commits it, so `a` ends up in the active lock set — refuting "discarded
rather than committed by any later successful merge call". -/
theorem c1_counterexample :
    c1r1 = .err (.lockedKey "z") c1s1 ∧
    "a" ∈ c1s1.pending ∧ isLockedF c1s1 "a" = false ∧
    c1r2.isOk = true ∧ "a" ∈ c1r2.state.locked := by
  exact ⟨rfl, by decide, rfl, rfl, by decide⟩

/-- C2, counterexample.  The layers `{'=K': 7, 'K': {'a': 1}}` and
`{'K': {'a': 1}, '=K': 7}` hold the same key/value pairs, and the two keys
parse to identical sort keys, so Python's stable sort falls back to insertion
order: the first layer applies `'=K'` first (writing the leaf `None` at `K`,
then crashing with `AttributeError` when `'K'` recurses into that leaf),
while the second applies `'K'` first and completes — permutations of one
layer do not merge identically. -/
theorem c2_counterexample :
    c2l2.Perm c2l1 ∧ c2r1.isOk = false ∧ c2r2.isOk = true :=
  ⟨List.Perm.swap _ _ _, rfl, rfl⟩

/-- C3, code bug.  The successful merge of `{'#grp': {'a': 1}}` leaves a
provenance entry at the path `grp`, which is a branch (dict) node of the
tree, not a leaf — contradicting the code's own comment that "sources are
only stored for leaf values, not dicts" and the claimed invariant. -/
theorem c3_code_bug :
    c3res.isOk = true ∧
    lookupA c3res.state.sources "grp" = some [.istr "n"] ∧
    getF c3res.state "grp" = .ok (.vdict [("a", .vint 1)]) :=
  ⟨rfl, rfl, rfl⟩

/-- C4, code bug.  After merging `{'list': {'a': 1}, 'listing': 2}` (source
`one`) and then the leaf `{'list': 5}` (source `two`) over the branch
`list`, the purge `key.startswith('list')` also removes the provenance of
the untouched sibling leaf `listing` — its value survives but its
provenance entry is gone. -/
theorem c4_code_bug :
    c4r1.isOk = true ∧
    lookupA c4r1.state.sources "listing" = some [.istr "one"] ∧
    c4res.isOk = true ∧
    getF c4res.state "listing" = .ok (.vint 2) ∧
    lookupA c4res.state.sources "listing" = none :=
  ⟨rfl, rfl, rfl, rfl, rfl⟩

/-- C5, counterexample.  For the branch `g` of
`{'g': {'a': 1, 'b': 2}, 'g2': 7}` (all from source `n`), `source('g')`
returns three per-entry contributor lists — one of them for the sibling leaf
`g2`, which is not beneath `g` but merely starts with it — nested and with
duplicates, not a deduplicated flat union (which would be the single token
`n` for the two leaves `g.a`, `g.b`). -/
theorem c5_counterexample :
    sourceF c5res.state "g" =
      .collected [[.istr "n"], [.istr "n"], [.istr "n"]] ∧
    ¬ ([[SrcId.istr "n"], [.istr "n"], [.istr "n"]]).Nodup ∧
    getF c5res.state "g2" = .ok (.vint 7) :=
  ⟨rfl, by decide, rfl⟩

/-- C6.  The `?` and `!` modifiers behave exactly as claimed on
`{'exists': 1}`; existence is tested against the `None` sentinel (a stored
`None` counts as non-existent for `?` and as absent for `!`), not
truthiness (`False` counts as existing); and a gated-out key changes
nothing: concretely `{'?null': 9}` and `{'?#missing': 5}` leave tree,
provenance and pending locks untouched, and in general a gated key is
skipped whole. -/
theorem c6_modifiers :
    getF c6q.state "exists" = .ok (.vint 2) ∧
    getF c6q.state "missing" = .error .keyError ∧
    getF c6b.state "exists" = .ok (.vint 1) ∧
    getF c6b.state "missing" = .ok (.vint 3) ∧
    getF c6qn.state "null" = .ok .vnone ∧
    getF c6bn.state "null" = .ok (.vint 9) ∧
    getF c6qf.state "non_truth" = .ok (.vbool true) ∧
    c6qn.state.data = c6null.state.data ∧
    c6qn.state.sources = c6null.state.sources ∧
    c6qn.state.pending = [] ∧
    c6gl.state.data = c6base.state.data ∧
    c6gl.state.sources = c6base.state.sources ∧
    c6gl.state.pending = [] ∧ c6gl.state.locked = [] ∧
    (∀ fuel sk v rest d name path locked st,
      sk.modifiers ≠ [] →
      applyMods sk.modifiers ((lookupV d sk.trueKey).getD .vnone) v = false →
      joinPath path sk.trueKey ∉ locked →
      mergeItems (fuel + 1) ((sk, v) :: rest) (.vdict d) name path locked st =
        mergeItems fuel rest (.vdict d) name path locked st) :=
  ⟨rfl, rfl, rfl, rfl, rfl, rfl, rfl, rfl, rfl, rfl, rfl, rfl, rfl, rfl,
    fun fuel sk v rest d name path locked st hm hg hl =>
      mergeItems_skips_gated fuel sk v rest d name path locked st hm hg hl⟩

/-- C9, counterexample.  On a fresh configuration nothing is locked, yet
`set('a.b', 5)` does not write the value: it raises `KeyError` because the
ancestor `a` does not resolve, and the tree is left unchanged. -/
theorem c9_counterexample :
    emptyConfig.locked = [] ∧
    c9res = .err .keyError emptyConfig ∧
    getF c9res.state "a.b" = .error .keyError :=
  ⟨rfl, rfl, rfl⟩

/-- C10.  If any raw key of one dictionary level is malformed, the whole
level aborts with the malformed-key error before any key of that level is
applied: the destination node and the provenance/pending state are returned
exactly as they were when the level was entered. -/
theorem c10_malformed_level_is_isolated (fuel : Nat) (src : Dict)
    (dest : Value) (name : SrcId) (path : String) (locked : List String)
    (st : SubSt) (h : ∃ p ∈ src, separate p.1 = none) :
    ∃ k, separate k = none ∧
      mergeLevel fuel src dest name path locked st =
        .err (.malformedKey k) (dest, st) := by
  obtain ⟨k, hk, hpe⟩ := parseAll_error_of_bad src h
  exact ⟨k, hk, by simp [mergeLevel, hpe]⟩

/-- C10, witness: a level whose second key contains a space is rejected whole,
leaving the entered state untouched. -/
theorem c10_witness :
    (∃ p ∈ c10src, separate p.1 = none) ∧
    (∃ k, separate k = none ∧
      mergeLevel 9 c10src (.vdict []) (.istr "n") "" [] ⟨[], []⟩ =
        .err (.malformedKey k) (.vdict [], ⟨[], []⟩)) := by
  have h : ∃ p ∈ c10src, separate p.1 = none :=
    ⟨("no key", .vint 2), by simp [c10src], rfl⟩
  exact ⟨h, c10_malformed_level_is_isolated 9 c10src (.vdict []) (.istr "n") "" [] ⟨[], []⟩ h⟩

/-- C1, amended.  A merge call that raises leaves the active lock set (and
the merge order) unchanged — no lock staged during the call becomes active
at that point — and the pending set survives the abort; but pending locks
are not discarded: any later successful merge call commits every pending
lock (its own and any left over from aborted calls) into the active set,
and only then clears the pending set. -/
theorem c1_amended :
    (∀ fuel data name σ e σ', doMerge fuel data name σ = .err e σ' →
        σ'.locked = σ.locked ∧ σ'.mergeOrder = σ.mergeOrder ∧
        σ.pending ⊆ σ'.pending) ∧
    (∀ fuel data name σ σ', doMerge fuel data name σ = .ok σ' →
        σ.pending ⊆ σ'.locked ∧ σ'.pending = []) := by
  constructor
  · intro fuel data name σ e σ' h
    unfold doMerge at h
    try dsimp only at h
    cases hml : mergeLevel fuel data σ.data (resolveId name σ) "" σ.locked
        ⟨σ.sources, σ.pending⟩ with
    | ok pr => rw [hml] at h; simp at h
    | err e2 pr =>
      obtain ⟨data', st⟩ := pr
      rw [hml] at h
      dsimp at h
      injection h with he hc
      subst hc
      refine ⟨rfl, rfl, ?_⟩
      have h2 := mergeLevel_pending_mono fuel data σ.data (resolveId name σ) ""
        σ.locked ⟨σ.sources, σ.pending⟩
      rw [hml] at h2
      exact h2
  · intro fuel data name σ σ' h
    unfold doMerge at h
    try dsimp only at h
    cases hml : mergeLevel fuel data σ.data (resolveId name σ) "" σ.locked
        ⟨σ.sources, σ.pending⟩ with
    | err e2 pr => rw [hml] at h; simp at h
    | ok pr =>
      obtain ⟨data', st⟩ := pr
      rw [hml] at h
      dsimp at h
      injection h with hc
      subst hc
      refine ⟨?_, rfl⟩
      intro k hk
      have h2 := mergeLevel_pending_mono fuel data σ.data (resolveId name σ) ""
        σ.locked ⟨σ.sources, σ.pending⟩
      rw [hml] at h2
      exact mem_unionSet_of_right σ.locked (h2 hk)

/-- C5, amended.  For any path without a provenance entry of its own (in
particular any branch path), `source` returns the list of the stored
per-entry contributor lists of every provenance entry whose path has the
queried string as a string prefix, in provenance-index order, with no
flattening and no deduplication. -/
theorem c5_amended (σ : Config) (key : String)
    (h : lookupA σ.sources key = none) :
    sourceF σ key =
      .collected ((σ.sources.filter (fun e => startsWithS e.1 key)).map
        (fun e => e.2)) := by
  unfold sourceF
  rw [h, collectLoop_eq]

/-- C5, witness for the amended statement, on the counterexample
configuration. -/
theorem c5_amended_witness :
    lookupA c5res.state.sources "g" = none ∧
    sourceF c5res.state "g" =
      .collected ((c5res.state.sources.filter
        (fun e => startsWithS e.1 "g")).map (fun e => e.2)) :=
  ⟨rfl, c5_amended c5res.state "g" rfl⟩


/-- C9, amended.  `set(path, value)` raises `LockedKeyError` and leaves the
configuration unchanged whenever the path or any segment-wise ancestor
prefix of it is in the active lock set; when none is locked *and every
proper ancestor prefix resolves to an existing branch node*, `set` writes
the value at the path (otherwise the inherited `_walk` raises
`KeyError`/`TypeError` and nothing is written). -/
theorem c9_amended :
    (∀ σ key v, (∃ i, 1 ≤ i ∧ i ≤ (splitDot key).length ∧
        String.intercalate "." ((splitDot key).take i) ∈ σ.locked) →
      ∃ k, setF σ key v = .err (.lockedKey k) σ) ∧
    (∀ σ key v par,
      (¬ ∃ i, 1 ≤ i ∧ i ≤ (splitDot key).length ∧
        String.intercalate "." ((splitDot key).take i) ∈ σ.locked) →
      walkParents σ.data (splitDot key) = some par →
      ∃ data', setF σ key v = .ok { σ with data := data' } ∧
        getF { σ with data := data' } key = .ok v) := by
  constructor
  · intro σ key v ⟨i, h1, h2, hm⟩
    cases hk : getLockedKey σ.locked key with
    | none =>
      have := (lockedKeyGo_none_iff σ.locked (splitDot key) (splitDot key).length).mp hk
      exact absurd hm (this i h1 h2)
    | some k => exact ⟨k, by simp [setF, hk]⟩
  · intro σ key v par hne hwalk
    have hnone : getLockedKey σ.locked key = none :=
      (lockedKeyGo_none_iff σ.locked (splitDot key) (splitDot key).length).mpr
        (fun i h1 h2 hm => hne ⟨i, h1, h2, hm⟩)
    obtain ⟨data', hset, hget⟩ := setPath_write v (splitDot key) σ.data par hwalk
    refine ⟨data', ?_, ?_⟩
    · simp [setF, hnone, hset]
    · simpa [getF] using hget

/-- C7.  For a configuration whose provenance index has (as maintained)
unique paths, every path listed for a source identifier by `sources()`
yields that identifier in `source(path)`: the path has a stored provenance
list, `source` returns it directly, and the identifier is in it. -/
theorem c7_provenance_roundtrip (σ : Config) (m : List (SrcId × List String))
    (hn : (σ.sources.map Prod.fst).Nodup)
    (hok : sourcesOf σ = .ok m) :
    ∀ s ps p, (s, ps) ∈ m → p ∈ ps →
      ∃ l, sourceF σ p = .direct l ∧ s ∈ l := by
  intro s ps p hm hp
  have hinv0 : ∀ (s' : SrcId) (ps' : List String) (p' : String),
      (s', ps') ∈ (dedupIds σ.mergeOrder).map (fun s0 => (s0, ([] : List String))) →
      p' ∈ ps' → ∃ l, lookupA σ.sources p' = some l ∧ s' ∈ l := by
    intro s' ps' p' hmem hp'
    obtain ⟨s'', _, heq⟩ := List.mem_map.mp hmem
    cases heq
    cases hp'
  have hfold := srcFold_inv σ.sources hn σ.sources _ m (fun e he => he) hinv0 hok
  obtain ⟨l, hl, hsl⟩ := hfold s ps p hm hp
  exact ⟨l, by simp [sourceF, hl], hsl⟩

/-- C7, witness: a configuration with one provenance entry, inverted and
queried back. -/
theorem c7_witness :
    (c7cfg.sources.map Prod.fst).Nodup ∧
    sourcesOf c7cfg = .ok [(.istr "s", ["x"])] ∧
    ∃ l, sourceF c7cfg "x" = .direct l ∧ SrcId.istr "s" ∈ l :=
  ⟨by decide, rfl,
    c7_provenance_roundtrip c7cfg [(.istr "s", ["x"])] (by decide) rfl
      (.istr "s") ["x"] "x" (by decide) (by decide)⟩

/-- C2, amended.  When the parsed true keys of a layer are pairwise distinct,
the processing order is determined solely by the parsed keys: merging any
permutation of the layer's key/value pairs (any fuel, any identifier, any
starting configuration) produces exactly the same result — tree, provenance,
locks, and even the error, if any.  (With duplicate true keys, a bare key
and its `'='`-action twin tie, and Python's stable sort falls back to
insertion order: see the counterexample.) -/
theorem c2_amended (fuel : Nat) (l₁ l₂ : Dict) (name : Option SrcId)
    (σ : Config) (items : List (SepKey × Value))
    (hp : parseAll l₁ = .ok items)
    (hnd : (items.map (fun it => it.1.trueKey)).Nodup)
    (hperm : l₁.Perm l₂) :
    doMerge fuel l₁ name σ = doMerge fuel l₂ name σ := by
  obtain ⟨items₂, hp₂, hip⟩ := parseAll_perm hperm hp
  have hs := sortItems_eq_of_perm items items₂ hip hnd
  unfold doMerge
  simp only [mergeLevel, hp, hp₂]
  rw [show sortItems items = sortItems items₂ from hs]

/-- C2, witness for the amended statement: two permutations of a layer with
distinct true keys merge identically. -/
theorem c2_amended_witness :
    parseAll c2w1 = .ok c2wItems ∧
    (c2wItems.map (fun it => it.1.trueKey)).Nodup ∧
    c2w1.Perm c2w2 ∧
    doMerge 9 c2w1 (some (.istr "n")) emptyConfig =
      doMerge 9 c2w2 (some (.istr "n")) emptyConfig :=
  ⟨rfl, by decide, List.Perm.swap _ _ _,
    c2_amended 9 c2w1 c2w2 (some (.istr "n")) emptyConfig c2wItems rfl (by decide)
      (List.Perm.swap _ _ _)⟩

/-- C8, counterexample.  `c8m = {'a': 5, 'b': 6}` has no operator-prefixed
keys, and its first merge (under the stale pending lock left by an earlier
aborted merge) succeeds.  Merging the same mapping a second time raises
`LockError`, and the provenance list of the affected leaf `b` still reads
`['n1']`: its last entry is not the identifier `n2` of the last merge, even
though the final tree happens to agree.  The claim's provenance clause fails
on a configuration with a stale pending lock. -/
theorem c8_counterexample :
    plainDict c8m = true ∧
    c8r2.isOk = true ∧
    c8r3.isOk = false ∧
    lookupA c8r3.state.sources "b" = some [.istr "n1"] ∧
    SrcId.istr "n1" ≠ SrcId.istr "n2" ∧
    c8r3.state.data = c8r2.state.data := by
  refine ⟨rfl, rfl, rfl, rfl, by decide, rfl⟩

/-- C8, amended.  On a configuration with no pending locks, merging a plain,
well-formed mapping (no operator-prefixed keys, unique keys at every level)
twice with truthy names succeeds and yields the same final tree as merging it
once, and every leaf path of the mapping is attributed to exactly the last
merge's identifier in both scenarios. -/
theorem c8_amended (fuel : Nat) (m : Dict) (σ : Config) (n₁ n₂ : SrcId)
    (hplain : plainDict m = true) (hwf : wfDict m = true)
    (hpend : σ.pending = []) (hf1 : n₁.falsy = false) (hf2 : n₂.falsy = false)
    (σ₁ : Config) (h1 : doMerge fuel m (some n₁) σ = .ok σ₁) :
    ∃ σ₂, doMerge fuel m (some n₂) σ₁ = .ok σ₂ ∧ σ₂.data = σ₁.data ∧
      ∀ p ∈ leafPathsD "" m, lookupA σ₂.sources p = some [n₂] ∧
        lookupA σ₁.sources p = some [n₁] := by
  have hpa := parseAll_plain m hplain
  simp only [doMerge, resolveId, hf1, Bool.false_eq_true, if_false,
    mergeLevel, hpa] at h1
  cases hrun : mergeItems fuel (sortItems (m.map (fun e => (plainSep e.1, e.2))))
      σ.data n₁ "" σ.locked ⟨σ.sources, σ.pending⟩ with
  | err e pr =>
    obtain ⟨data₁, st₁⟩ := pr
    rw [hrun] at h1
    simp at h1
  | ok pr =>
    obtain ⟨data₁, st₁⟩ := pr
    rw [hrun] at h1
    try dsimp only at h1
    simp only [MRes.ok.injEq] at h1
    subst h1
    obtain ⟨cPend, cScope, cFrame, cDict, cReplay, cProv⟩ :=
      mergeItems_plain fuel _ σ.data n₁ "" σ.locked ⟨σ.sources, σ.pending⟩
        data₁ st₁ (subItems_plainPack hplain hwf) (subItems_nodup hwf)
        (sortItems_sorted _) hrun
    have hp1 : st₁.pending = [] := by rw [cPend]; exact hpend
    have hlock : unionSet σ.locked st₁.pending = σ.locked := by rw [hp1]; rfl
    obtain ⟨st₂', hrun₂⟩ := cReplay n₂ ⟨st₁.sources, []⟩
    refine ⟨⟨data₁, st₂'.sources, (σ.mergeOrder ++ [n₁]) ++ [n₂],
      unionSet (unionSet σ.locked st₁.pending) st₂'.pending, []⟩, ?_, rfl, ?_⟩
    · simp only [doMerge, resolveId, hf2, Bool.false_eq_true, if_false,
        mergeLevel, hpa]
      try dsimp only
      rw [hlock, hrun₂]
    · intro p hp
      obtain ⟨e, he, hpe⟩ := leafPathsD_mem.mp hp
      have hitem := mem_sortItems_map he
      constructor
      · obtain ⟨_, _, _, _, _, c2Prov⟩ :=
          mergeItems_plain fuel _ data₁ n₂ "" σ.locked ⟨st₁.sources, []⟩
            data₁ st₂' (subItems_plainPack hplain hwf) (subItems_nodup hwf)
            (sortItems_sorted _) hrun₂
        exact c2Prov _ hitem p hpe
      · exact cProv _ hitem p hpe

/-- C8, witness for the amended theorem: the plain mapping `c8m` merged twice
into an empty configuration. -/
theorem c8_amended_witness :
    ∃ σ₂, doMerge 50 c8m (some (.istr "n2"))
        (doMerge 50 c8m (some (.istr "n1")) emptyConfig).state = .ok σ₂ ∧
      σ₂.data = (doMerge 50 c8m (some (.istr "n1")) emptyConfig).state.data ∧
      ∀ p ∈ leafPathsD "" c8m,
        lookupA σ₂.sources p = some [.istr "n2"] ∧
        lookupA (doMerge 50 c8m (some (.istr "n1")) emptyConfig).state.sources p =
          some [.istr "n1"] :=
  c8_amended 50 c8m emptyConfig (.istr "n1") (.istr "n2") rfl rfl rfl rfl rfl
    (doMerge 50 c8m (some (.istr "n1")) emptyConfig).state (by rfl)

end Cfg
